import Mathlib

/-!
Verification of the reading-mode highlight toggle of
obsidian-reading-mode-highlighter (src/main.ts).

Documents, selections and context snippets are modelled as `List Char`.
Every regular expression the plugin builds is produced by concatenating
metacharacter-escaped pieces (`RegexCache.getEscapedText`), so each pattern
denotes either a literal string or, for the add path, a literal alternation
`before(bare|delimited)after`; the regex operations are therefore embedded
as literal substring search.  The plugin caches its compiled regexes with
the `g` flag, so `exec`/`test` consult and update the regex's `lastIndex`;
that mutable state is made explicit as a `Nat` passed in and returned by
the embedded operations.  JavaScript `String.prototype.replace` expands the
replacement patterns `$$`, `$&`, a dollar followed by a backquote, and a
dollar followed by a quote even when the search argument is a string; this
is embedded by `getSubstitution`.
-/

/-- `matchAt needle hay p` holds when `needle` occurs in `hay` at offset `p`. -/
def matchAt (needle hay : List Char) (p : Nat) : Bool :=
  decide ((hay.drop p).take needle.length = needle)

/-- Search for the first occurrence of `needle` at an offset `≥ i`, with fuel. -/
def findFromAux (needle hay : List Char) : Nat → Nat → Option Nat
  | _, 0 => none
  | i, fuel + 1 => if matchAt needle hay i then some i else findFromAux needle hay (i + 1) fuel

/-- First offset `≥ i` at which `needle` occurs in `hay` (JS `indexOf`-style,
also the behaviour of `exec` of an escaped pattern starting at `lastIndex = i`). -/
def findFrom (needle hay : List Char) (i : Nat) : Option Nat :=
  findFromAux needle hay i (hay.length + 1 - i)

/-- Search for the first offset `≥ i` where either alternative matches; the
first alternative is preferred at equal offsets, as in a backtracking regex
alternation `(a|b)`. -/
def findFromEitherAux (a b hay : List Char) : Nat → Nat → Option (Nat × Bool)
  | _, 0 => none
  | i, fuel + 1 =>
    if matchAt a hay i then some (i, true)
    else if matchAt b hay i then some (i, false)
    else findFromEitherAux a b hay (i + 1) fuel

/-- First offset `≥ i` at which the literal alternation `(a|b)` matches. -/
def findFromEither (a b hay : List Char) (i : Nat) : Option (Nat × Bool) :=
  findFromEitherAux a b hay i (hay.length + 1 - i)

/-- Number of (possibly overlapping) occurrences of `needle` in `hay`. -/
def countOcc (needle hay : List Char) : Nat :=
  ((List.range (hay.length + 1)).filter (fun p => matchAt needle hay p)).length

/-- `line.includes(needle)` of JavaScript. -/
def containsSub (needle hay : List Char) : Bool :=
  (findFrom needle hay 0).isSome

/-- The backquote character. -/
def backquoteChar : Char := Char.ofNat 96

/-- The single-quote character. -/
def singleQuoteChar : Char := Char.ofNat 39

/-- ECMAScript `GetSubstitution` for a string search argument (no capture
groups): expands `$$`, `$&`, dollar-backquote and dollar-quote; every other
character, including an unrecognised `$`-sequence, is kept literally. -/
def getSubstitution (matched pre post : List Char) : List Char → List Char
  | [] => []
  | [c] => [c]
  | c :: d :: rest =>
    if c = '$' then
      if d = '$' then '$' :: getSubstitution matched pre post rest
      else if d = '&' then matched ++ getSubstitution matched pre post rest
      else if d = backquoteChar then pre ++ getSubstitution matched pre post rest
      else if d = singleQuoteChar then post ++ getSubstitution matched pre post rest
      else c :: getSubstitution matched pre post (d :: rest)
    else c :: getSubstitution matched pre post (d :: rest)

/-- JS `hay.replace(needle, repl)` with a string search argument: substitute
the first occurrence of `needle`, expanding `$`-sequences in `repl`. -/
def stringReplace (hay needle repl : List Char) : List Char :=
  match findFrom needle hay 0 with
  | none => hay
  | some p =>
    hay.take p ++ getSubstitution needle (hay.take p) (hay.drop (p + needle.length)) repl
      ++ hay.drop (p + needle.length)

/-- Successive non-overlapping replacement of a literal pattern, from offset `i`. -/
def replaceAllAux (pattern repl hay : List Char) : Nat → Nat → List Char
  | 0, i => hay.drop i
  | fuel + 1, i =>
    match findFrom pattern hay i with
    | none => hay.drop i
    | some p =>
      (hay.drop i).take (p - i)
        ++ getSubstitution pattern (hay.take p) (hay.drop (p + pattern.length)) repl
        ++ replaceAllAux pattern repl hay fuel (p + pattern.length)

/-- JS `hay.replace(regex, repl)` for a global regex denoting the literal
`pattern`: every non-overlapping occurrence is substituted.  The empty-pattern
guard is unreachable in the plugin (each exact pattern contains `==text==`,
which is never empty); it only keeps the definition total. -/
def replaceAllLit (pattern repl hay : List Char) : List Char :=
  if pattern = [] then hay else replaceAllAux pattern repl hay (hay.length + 1) 0

/-- Non-overlapping match count, as produced by `content.match(globalRegex)`
on a literal pattern (`none` result encoded as count `0`). -/
def matchCountAux (pattern hay : List Char) : Nat → Nat → Nat
  | 0, _ => 0
  | fuel + 1, i =>
    match findFrom pattern hay i with
    | none => 0
    | some p => 1 + matchCountAux pattern hay fuel (p + pattern.length)

/-- Number of matches of `content.match(globalRegexFor pattern)`. -/
def jsMatchCount (pattern hay : List Char) : Nat :=
  matchCountAux pattern hay (hay.length + 1) 0

/-- `regex.test(hay)` for a cached global regex denoting the literal `pattern`,
starting at `lastIndex`; returns the verdict and the updated `lastIndex`
(end of the match on success, `0` on failure). -/
def regexTest (pattern hay : List Char) (lastIndex : Nat) : Bool × Nat :=
  match findFrom pattern hay lastIndex with
  | some p => (true, p + pattern.length)
  | none => (false, 0)

/-- `regex.exec(hay)` for a cached global regex denoting the literal
alternation `(a|b)`, starting at `lastIndex`: the matched offset and which
alternative matched, plus the updated `lastIndex`. -/
def execAlt (a b hay : List Char) (lastIndex : Nat) : Option (Nat × Bool) × Nat :=
  match findFromEither a b hay lastIndex with
  | some (p, alt1) => (some (p, alt1), p + (if alt1 then a.length else b.length))
  | none => (none, 0)

/-- `content.split(newline)` of JavaScript. -/
def splitLines : List Char → List (List Char)
  | [] => [[]]
  | c :: rest =>
    if c = '\n' then [] :: splitLines rest
    else
      match splitLines rest with
      | [] => [[c]]
      | l :: ls => (c :: l) :: ls

/-- `lines.join(newline)` of JavaScript. -/
def joinLines : List (List Char) → List Char
  | [] => []
  | [l] => l
  | l :: ls => l ++ '\n' :: joinLines ls

/-- Offset in the joined document of the start of line `li`. -/
def lineOffset : List (List Char) → Nat → Nat
  | _, 0 => 0
  | [], _ + 1 => 0
  | l :: ls, i + 1 => l.length + 1 + lineOffset ls i

/-- `==selectedText==`. -/
def highlightedVersion (t : List Char) : List Char :=
  '=' :: '=' :: (t ++ ['=', '='])

/-- The metacharacters escaped by `RegexCache.getEscapedText`
(the class of `/[.*+?^${}()|[\]\\]/g`). -/
def metachars : List Char :=
  ['.', '*', '+', '?', '^', '$', Char.ofNat 123, Char.ofNat 125, '(', ')', '|', '[', ']', '\\']

/-- `RegexCache.getEscapedText`: prefix every metacharacter with a backslash. -/
def getEscapedText (s : List Char) : List Char :=
  s.flatMap (fun c => if c ∈ metachars then ['\\', c] else [c])

/-- Denotation of a metacharacter-free pattern: a sequence of plain
non-metacharacter characters and backslash-escaped metacharacters denotes the
literal string of the characters themselves; anything else (an unescaped
metacharacter, a trailing backslash, an escape that is not a metacharacter
escape) is rejected. -/
def patDenote : List Char → Option (List Char)
  | [] => some []
  | [c] => if c ∈ metachars then none else some [c]
  | c :: d :: rest =>
    if c = '\\' then
      if d ∈ metachars then (patDenote rest).map (fun l => d :: l) else none
    else if c ∈ metachars then none
    else (patDenote (d :: rest)).map (fun l => c :: l)

/-- No JS replacement-pattern trigger character in `s`. -/
def noDollar (s : List Char) : Prop := '$' ∉ s

/-! ## Data model (src/main.ts interfaces) -/

/-- `PositionInfo` of src/main.ts: the rendered context around the selection
and an optional structural line index (`data-line`, parsed with `parseInt`,
hence an integer that the strategies range-check against `0` and the line
count). -/
structure PositionInfo where
  contextBefore : List Char
  contextAfter : List Char
  lineNumber : Option Int
deriving DecidableEq

/-- The `action` strings of a successful `ToggleResult`. -/
inductive ToggleAction where
  | added
  | removed
deriving DecidableEq

/-- `ToggleResult` of src/main.ts. -/
structure ToggleResult where
  success : Bool
  newContent : Option (List Char) := none
  action : Option ToggleAction := none
  error : Option String := none
deriving DecidableEq

/-- Error message of the add path's final fallback failure. -/
def errorAmbiguousAdd : String :=
  "Multiple instances found. Please select text with unique context."

/-- Error message of the remove path's final fallback failure. -/
def errorAmbiguousRemove : String :=
  "Could not safely remove highlight. Multiple instances found."

/-! ## The rendered-mode toggle (src/main.ts lines 269-403)

`addHighlightOptimizedFrom`/`removeHighlightOptimizedFrom` take the incoming
`lastIndex` of the cached global regex used by their exact-context strategy and
return the updated value next to the `ToggleResult`; `addHighlightOptimized`
etc. are the same calls with a fresh (just-cleared) regex cache, where every
`lastIndex` is `0`. -/

/-- Step 2 of `addHighlightOptimized` (line-based fallback): `none` means the
strategy falls through to step 3. -/
def addStrategy2 (content selectedText : List Char) (lineNumber : Option Int) :
    Option ToggleResult :=
  match lineNumber with
  | none => none
  | some li =>
    let lines := splitLines content
    if 0 ≤ li ∧ li < (lines.length : Int) then
      let line := lines.getD li.toNat []
      if containsSub selectedText line then
        some { success := true,
               newContent := some (joinLines (lines.set li.toNat
                 (stringReplace line selectedText (highlightedVersion selectedText)))),
               action := some ToggleAction.added }
      else none
    else none

/-- Step 3 of `addHighlightOptimized` (safe global matching). -/
def addStrategy3 (content selectedText : List Char) : ToggleResult :=
  if jsMatchCount selectedText content = 1
      ∧ jsMatchCount (highlightedVersion selectedText) content = 0 then
    { success := true,
      newContent := some (stringReplace content selectedText (highlightedVersion selectedText)),
      action := some ToggleAction.added }
  else { success := false, error := some errorAmbiguousAdd }

/-- `addHighlightOptimized`, with the incoming `lastIndex` of the cached
context regex made explicit; also returns the regex's updated `lastIndex`. -/
def addHighlightOptimizedFrom (l1 : Nat) (content selectedText : List Char)
    (positionInfo : PositionInfo) : ToggleResult × Nat :=
  let bareForm := positionInfo.contextBefore ++ selectedText ++ positionInfo.contextAfter
  let highForm :=
    positionInfo.contextBefore ++ highlightedVersion selectedText ++ positionInfo.contextAfter
  match execAlt bareForm highForm content l1 with
  | (some (_, isBare), l1x) =>
    let matched := if isBare then bareForm else highForm
    let replacement := if isBare then highForm else bareForm
    ({ success := true,
       newContent := some (stringReplace content matched replacement),
       action := some (if isBare then ToggleAction.added else ToggleAction.removed) }, l1x)
  | (none, l1x) =>
    match addStrategy2 content selectedText positionInfo.lineNumber with
    | some r => (r, l1x)
    | none => (addStrategy3 content selectedText, l1x)

/-- `addHighlightOptimized` called with a fresh regex cache. -/
def addHighlightOptimized (content selectedText : List Char)
    (positionInfo : PositionInfo) : ToggleResult :=
  (addHighlightOptimizedFrom 0 content selectedText positionInfo).1

/-- Strategy 2 of `removeHighlightOptimized` (line-based removal). -/
def removeStrategy2 (content selectedText : List Char) (lineNumber : Option Int) :
    Option ToggleResult :=
  match lineNumber with
  | none => none
  | some li =>
    let lines := splitLines content
    if 0 ≤ li ∧ li < (lines.length : Int) then
      let line := lines.getD li.toNat []
      if containsSub (highlightedVersion selectedText) line then
        some { success := true,
               newContent := some (joinLines (lines.set li.toNat
                 (stringReplace line (highlightedVersion selectedText) selectedText))),
               action := some ToggleAction.removed }
      else none
    else none

/-- Strategy 3 of `removeHighlightOptimized` (safe global removal). -/
def removeStrategy3 (content selectedText : List Char) : ToggleResult :=
  if jsMatchCount (highlightedVersion selectedText) content = 1 then
    { success := true,
      newContent := some (stringReplace content (highlightedVersion selectedText) selectedText),
      action := some ToggleAction.removed }
  else { success := false, error := some errorAmbiguousRemove }

/-- `removeHighlightOptimized`, with the incoming `lastIndex` of the cached
exact-pattern regex made explicit.  Its `test` consumes `lastIndex`; the
subsequent global `replace` and a failed `test` both leave `lastIndex` at `0`,
so the returned state is always `0`. -/
def removeHighlightOptimizedFrom (l2 : Nat) (content selectedText : List Char)
    (positionInfo : PositionInfo) : ToggleResult × Nat :=
  let exactPattern :=
    positionInfo.contextBefore ++ highlightedVersion selectedText ++ positionInfo.contextAfter
  match regexTest exactPattern content l2 with
  | (true, _) =>
    let replacement := positionInfo.contextBefore ++ selectedText ++ positionInfo.contextAfter
    ({ success := true,
       newContent := some (replaceAllLit exactPattern replacement content),
       action := some ToggleAction.removed }, 0)
  | (false, _) =>
    match removeStrategy2 content selectedText positionInfo.lineNumber with
    | some r => (r, 0)
    | none => (removeStrategy3 content selectedText, 0)

/-- `removeHighlightOptimized` called with a fresh regex cache. -/
def removeHighlightOptimized (content selectedText : List Char)
    (positionInfo : PositionInfo) : ToggleResult :=
  (removeHighlightOptimizedFrom 0 content selectedText positionInfo).1

/-- `processHighlightToggle` with the two relevant cached-regex `lastIndex`
values (`l1` for the add path's context regex, `l2` for the remove path's
exact regex) passed and returned explicitly. -/
def processHighlightToggleFrom (l1 l2 : Nat) (content selectedText : List Char)
    (positionInfo : PositionInfo) (isHighlighted : Bool) : ToggleResult × Nat × Nat :=
  if isHighlighted then
    let (r, l2x) := removeHighlightOptimizedFrom l2 content selectedText positionInfo
    (r, l1, l2x)
  else
    let (r, l1x) := addHighlightOptimizedFrom l1 content selectedText positionInfo
    (r, l1x, l2)

/-- `processHighlightToggle` called with a fresh regex cache. -/
def processHighlightToggle (content selectedText : List Char)
    (positionInfo : PositionInfo) (isHighlighted : Bool) : ToggleResult :=
  (processHighlightToggleFrom 0 0 content selectedText positionInfo isHighlighted).1

/-! ## `HighlightDetector.isHighlighted` (src/main.ts lines 116-152) -/

/-- The detection-cache key: the code joins the selected text and the two
context snippets with a colon (the document content is not part of the key). -/
def detectKey (selectedText before after : List Char) : List Char :=
  selectedText ++ ':' :: before ++ ':' :: after

/-- `HighlightDetector.isHighlighted` with its `detectionCache` (an
association list queried first, extended on a miss) and the `lastIndex` of
the cached exact-pattern regex made explicit. -/
def isHighlightedFrom (cache : List (List Char × Bool)) (l2 : Nat)
    (content selectedText : List Char) (positionInfo : PositionInfo) :
    Bool × List (List Char × Bool) × Nat :=
  let key := detectKey selectedText positionInfo.contextBefore positionInfo.contextAfter
  match cache.lookup key with
  | some b => (b, cache, l2)
  | none =>
    let exactPattern :=
      positionInfo.contextBefore ++ highlightedVersion selectedText ++ positionInfo.contextAfter
    let (hit, l2x) := regexTest exactPattern content l2
    let verdict : Bool :=
      if hit then true
      else
        match positionInfo.lineNumber with
        | some li =>
          let lines := splitLines content
          if 0 ≤ li ∧ li < (lines.length : Int) then
            containsSub (highlightedVersion selectedText) (lines.getD li.toNat [])
          else false
        | none => false
    (verdict, (key, verdict) :: cache, l2x)

/-- `HighlightDetector.isHighlighted` with a fresh cache. -/
def isHighlightedFresh (content selectedText : List Char) (positionInfo : PositionInfo) : Bool :=
  (isHighlightedFrom [] 0 content selectedText positionInfo).1

/-! ## `handleEditingModeOptimized` (src/main.ts lines 406-441)

Modelled for a single-line selection: the line the selection lies on and the
column range `[sCh, eCh)`; the result is the new text of that line, `none`
when the empty-selection guard fires and no edit happens. -/

/-- JS `str.substring(a, b)` (arguments clamped to the string, swapped when
out of order). -/
def jsSubstring (str : List Char) (a b : Nat) : List Char :=
  if a ≤ b then (str.take b).drop a else (str.take a).drop b

/-- The delimiter pair `==`. -/
def eqeq : List Char := ['=', '=']

/-- `handleEditingModeOptimized` on the selection's line. -/
def handleEditingModeOptimized (line : List Char) (sCh eCh : Nat) : Option (List Char) :=
  let selection := jsSubstring line sCh eCh
  if selection.all Char.isWhitespace then none
  else
    let beforeStartPos := sCh - 2
    let afterEndPos := min line.length (eCh + 2)
    let beforeMarker := jsSubstring line beforeStartPos sCh
    let afterMarker := jsSubstring line eCh afterEndPos
    if beforeMarker = eqeq ∧ afterMarker = eqeq then
      some (line.take beforeStartPos ++ selection ++ line.drop afterEndPos)
    else if selection.take 2 = eqeq ∧ selection.drop (selection.length - 2) = eqeq then
      some (line.take sCh ++ ((selection.drop 2).take (selection.length - 4)) ++ line.drop eCh)
    else
      some (line.take sCh ++ eqeq ++ selection ++ eqeq ++ line.drop eCh)

/-- The buffer-mode three-case rule as the specification words it: the two
characters before the selection start and the two after its end (when they
exist) being `==` extends the edit region by two on each side and substitutes
the bare selection; else a selection itself delimited sheds its first and last
two characters; else the selection is wrapped in `==`. -/
def editingThreeCaseSpec (line : List Char) (sCh eCh : Nat) : List Char :=
  let selection := (line.take eCh).drop sCh
  if 2 ≤ sCh ∧ eCh + 2 ≤ line.length
      ∧ (line.take sCh).drop (sCh - 2) = eqeq ∧ (line.take (eCh + 2)).drop eCh = eqeq then
    line.take (sCh - 2) ++ selection ++ line.drop (eCh + 2)
  else if selection.take 2 = eqeq ∧ selection.drop (selection.length - 2) = eqeq then
    line.take sCh ++ ((selection.drop 2).take (selection.length - 4)) ++ line.drop eCh
  else
    line.take sCh ++ eqeq ++ selection ++ eqeq ++ line.drop eCh

/-! ## Search lemmas -/

/-- The empty needle matches everywhere. -/
theorem matchAt_nil (hay : List Char) (p : Nat) : matchAt [] hay p = true := by
  simp [matchAt]

/-- A match of a nonempty needle lies entirely inside the haystack. -/
theorem matchAt_le_length {needle hay : List Char} {p : Nat}
    (hne : needle ≠ []) (h : matchAt needle hay p = true) :
    p + needle.length ≤ hay.length := by
  have hEq : (hay.drop p).take needle.length = needle := by
    simpa [matchAt] using h
  have hlen := congrArg List.length hEq
  simp [List.length_take, List.length_drop] at hlen
  have hpos : 0 < needle.length := List.length_pos.mpr hne
  omega

/-- Matching decomposes the haystack around the matched region. -/
theorem matchAt_decomp {needle hay : List Char} {p : Nat}
    (h : matchAt needle hay p = true) :
    hay = hay.take p ++ needle ++ hay.drop (p + needle.length) := by
  have hEq : (hay.drop p).take needle.length = needle := by
    simpa [matchAt] using h
  have h2 : hay.drop p = needle ++ hay.drop (p + needle.length) := by
    conv_lhs => rw [← List.take_append_drop needle.length (hay.drop p)]
    rw [hEq, List.drop_drop, Nat.add_comm]
  conv_lhs => rw [← List.take_append_drop p hay, h2]
  simp [List.append_assoc]

/-- A match inside a left factor is a match of the concatenation. -/
theorem matchAt_append_right {t l : List Char} {q : Nat} (rest : List Char)
    (h : matchAt t l q = true) (hb : q + t.length ≤ l.length) :
    matchAt t (l ++ rest) q = true := by
  have hEq : (l.drop q).take t.length = t := by simpa [matchAt] using h
  have h0 : q - l.length = 0 := by omega
  have hd : (l ++ rest).drop q = l.drop q ++ rest := by
    simp [List.drop_append_eq_append_drop, h0]
  have ht : t.length - (l.drop q).length = 0 := by
    simp [List.length_drop]; omega
  simp [matchAt, hd, List.take_append_eq_append_take, ht, hEq]
  exact Or.inl (by omega)

/-- A match in the right factor shifts by the left factor's length. -/
theorem matchAt_append_left {t J : List Char} {x : Nat} (u : List Char)
    (h : matchAt t J x = true) : matchAt t (u ++ J) (u.length + x) = true := by
  have : (u ++ J).drop (u.length + x) = J.drop x := by
    simp [List.drop_append_eq_append_drop]
  simpa [matchAt, this] using h

theorem findFromAux_some {needle hay : List Char} :
    ∀ {fuel i p : Nat}, findFromAux needle hay i fuel = some p →
      i ≤ p ∧ p < i + fuel ∧ matchAt needle hay p = true ∧
        ∀ q, i ≤ q → q < p → matchAt needle hay q = false
  | 0, _, _, h => by simp [findFromAux] at h
  | fuel + 1, i, p, h => by
    by_cases hm : matchAt needle hay i = true
    · have hp : p = i := by simpa [findFromAux, hm] using h.symm
      subst hp
      exact ⟨Nat.le_refl _, by omega, hm, fun q hq1 hq2 => absurd hq1 (by omega)⟩
    · have h' : findFromAux needle hay (i + 1) fuel = some p := by
        simpa [findFromAux, hm] using h
      obtain ⟨h1, h2, h3, h4⟩ := findFromAux_some h'
      refine ⟨by omega, by omega, h3, fun q hq1 hq2 => ?_⟩
      rcases Nat.eq_or_lt_of_le hq1 with hq | hq
      · simpa [← hq] using Bool.eq_false_iff.mpr hm
      · exact h4 q hq hq2

theorem findFromAux_none {needle hay : List Char} :
    ∀ {fuel i : Nat}, findFromAux needle hay i fuel = none →
      ∀ q, i ≤ q → q < i + fuel → matchAt needle hay q = false
  | 0, _, _, _, hq1, hq2 => absurd hq2 (by omega)
  | fuel + 1, i, h, q, hq1, hq2 => by
    by_cases hm : matchAt needle hay i = true
    · simp [findFromAux, hm] at h
    · have h' : findFromAux needle hay (i + 1) fuel = none := by
        simpa [findFromAux, hm] using h
      rcases Nat.eq_or_lt_of_le hq1 with hq | hq
      · simpa [← hq] using Bool.eq_false_iff.mpr hm
      · exact findFromAux_none h' q hq (by omega)

theorem findFromAux_complete {needle hay : List Char} :
    ∀ {fuel i p : Nat}, i ≤ p → p < i + fuel → matchAt needle hay p = true →
      (findFromAux needle hay i fuel).isSome = true
  | 0, _, _, h1, h2, _ => absurd h2 (by omega)
  | fuel + 1, i, p, h1, h2, h3 => by
    by_cases hm : matchAt needle hay i = true
    · simp [findFromAux, hm]
    · have hip : i ≠ p := fun he => hm (he ▸ h3)
      have : (findFromAux needle hay (i + 1) fuel).isSome = true :=
        findFromAux_complete (by omega) (by omega) h3
      simpa [findFromAux, hm] using this

theorem findFrom_some {needle hay : List Char} {i p : Nat}
    (h : findFrom needle hay i = some p) :
    i ≤ p ∧ p ≤ hay.length ∧ matchAt needle hay p = true ∧
      ∀ q, i ≤ q → q < p → matchAt needle hay q = false := by
  obtain ⟨h1, h2, h3, h4⟩ := findFromAux_some h
  exact ⟨h1, by omega, h3, h4⟩

theorem findFrom_none {needle hay : List Char} {i : Nat}
    (h : findFrom needle hay i = none) :
    ∀ q, i ≤ q → q ≤ hay.length → matchAt needle hay q = false := by
  intro q hq1 hq2
  exact findFromAux_none h q hq1 (by omega)

theorem findFrom_complete {needle hay : List Char} {i p : Nat}
    (h1 : i ≤ p) (h2 : p ≤ hay.length) (h3 : matchAt needle hay p = true) :
    ∃ p', findFrom needle hay i = some p' := by
  have := @findFromAux_complete needle hay (hay.length + 1 - i) i p h1 (by omega) h3
  cases hf : findFrom needle hay i with
  | none => rw [findFrom] at hf; simp [hf] at this
  | some p' => exact ⟨p', rfl⟩

/-- A successful search means the needle fits inside the haystack there. -/
theorem findFrom_bound {needle hay : List Char} {i p : Nat}
    (h : findFrom needle hay i = some p) : p + needle.length ≤ hay.length := by
  obtain ⟨_, hp, hm, _⟩ := findFrom_some h
  rcases eq_or_ne needle [] with hne | hne
  · subst hne; simpa using hp
  · exact matchAt_le_length hne hm

/-! ## Alternation-search lemmas -/

theorem findFromEitherAux_some {a b hay : List Char} :
    ∀ {fuel i p : Nat} {alt1 : Bool}, findFromEitherAux a b hay i fuel = some (p, alt1) →
      i ≤ p ∧ p < i + fuel
        ∧ matchAt (if alt1 then a else b) hay p = true
        ∧ (alt1 = false → matchAt a hay p = false)
        ∧ ∀ q, i ≤ q → q < p → matchAt a hay q = false ∧ matchAt b hay q = false
  | 0, _, _, _, h => by simp [findFromEitherAux] at h
  | fuel + 1, i, p, alt1, h => by
    by_cases hma : matchAt a hay i = true
    · have hp : p = i ∧ alt1 = true := by
        have := h
        simp [findFromEitherAux, hma] at this
        exact ⟨this.1.symm, this.2⟩
      obtain ⟨hp1, hp2⟩ := hp
      subst hp1; subst hp2
      exact ⟨Nat.le_refl _, by omega, by simpa using hma, by simp,
        fun q hq1 hq2 => absurd hq1 (by omega)⟩
    · by_cases hmb : matchAt b hay i = true
      · have hp : p = i ∧ alt1 = false := by
          have := h
          simp [findFromEitherAux, hma, hmb] at this
          exact ⟨this.1.symm, this.2⟩
        obtain ⟨hp1, hp2⟩ := hp
        subst hp1; subst hp2
        exact ⟨Nat.le_refl _, by omega, by simpa using hmb,
          fun _ => Bool.eq_false_iff.mpr hma,
          fun q hq1 hq2 => absurd hq1 (by omega)⟩
      · have h' : findFromEitherAux a b hay (i + 1) fuel = some (p, alt1) := by
          simpa [findFromEitherAux, hma, hmb] using h
        obtain ⟨h1, h2, h3, h4, h5⟩ := findFromEitherAux_some h'
        refine ⟨by omega, by omega, h3, h4, fun q hq1 hq2 => ?_⟩
        rcases Nat.eq_or_lt_of_le hq1 with hq | hq
        · exact hq ▸ ⟨Bool.eq_false_iff.mpr hma, Bool.eq_false_iff.mpr hmb⟩
        · exact h5 q hq hq2

theorem findFromEitherAux_none {a b hay : List Char} :
    ∀ {fuel i : Nat}, findFromEitherAux a b hay i fuel = none →
      ∀ q, i ≤ q → q < i + fuel → matchAt a hay q = false ∧ matchAt b hay q = false
  | 0, _, _, _, hq1, hq2 => absurd hq2 (by omega)
  | fuel + 1, i, h, q, hq1, hq2 => by
    by_cases hma : matchAt a hay i = true
    · simp [findFromEitherAux, hma] at h
    · by_cases hmb : matchAt b hay i = true
      · simp [findFromEitherAux, hma, hmb] at h
      · have h' : findFromEitherAux a b hay (i + 1) fuel = none := by
          simpa [findFromEitherAux, hma, hmb] using h
        rcases Nat.eq_or_lt_of_le hq1 with hq | hq
        · exact hq ▸ ⟨Bool.eq_false_iff.mpr hma, Bool.eq_false_iff.mpr hmb⟩
        · exact findFromEitherAux_none h' q hq (by omega)

theorem findFromEitherAux_complete {a b hay : List Char} :
    ∀ {fuel i p : Nat}, i ≤ p → p < i + fuel →
      (matchAt a hay p = true ∨ matchAt b hay p = true) →
      (findFromEitherAux a b hay i fuel).isSome = true
  | 0, _, _, h1, h2, _ => absurd h2 (by omega)
  | fuel + 1, i, p, h1, h2, h3 => by
    by_cases hma : matchAt a hay i = true
    · simp [findFromEitherAux, hma]
    · by_cases hmb : matchAt b hay i = true
      · simp [findFromEitherAux, hma, hmb]
      · have hip : i ≠ p := by
          rintro rfl
          rcases h3 with h3 | h3
          · exact hma h3
          · exact hmb h3
        have : (findFromEitherAux a b hay (i + 1) fuel).isSome = true :=
          findFromEitherAux_complete (by omega) (by omega) h3
        simpa [findFromEitherAux, hma, hmb] using this

theorem findFromEither_some {a b hay : List Char} {i p : Nat} {alt1 : Bool}
    (h : findFromEither a b hay i = some (p, alt1)) :
    i ≤ p ∧ p ≤ hay.length
      ∧ matchAt (if alt1 then a else b) hay p = true
      ∧ (alt1 = false → matchAt a hay p = false)
      ∧ ∀ q, i ≤ q → q < p → matchAt a hay q = false ∧ matchAt b hay q = false := by
  obtain ⟨h1, h2, h3, h4, h5⟩ := findFromEitherAux_some h
  exact ⟨h1, by omega, h3, h4, h5⟩

theorem findFromEither_none {a b hay : List Char} {i : Nat}
    (h : findFromEither a b hay i = none) :
    ∀ q, i ≤ q → q ≤ hay.length → matchAt a hay q = false ∧ matchAt b hay q = false := by
  intro q hq1 hq2
  exact findFromEitherAux_none h q hq1 (by omega)

theorem findFromEither_complete {a b hay : List Char} {i p : Nat}
    (h1 : i ≤ p) (h2 : p ≤ hay.length)
    (h3 : matchAt a hay p = true ∨ matchAt b hay p = true) :
    ∃ p' alt1, findFromEither a b hay i = some (p', alt1) := by
  have := @findFromEitherAux_complete a b hay (hay.length + 1 - i) i p h1 (by omega) h3
  cases hf : findFromEither a b hay i with
  | none => rw [findFromEither] at hf; simp [hf] at this
  | some r => exact ⟨r.1, r.2, by simpa using hf⟩

/-- When the alternation's first hit takes the bare alternative, the plain
first-occurrence search for that alternative lands on the same offset (this is
why the string `replace` of `match[0]` edits the position `exec` reported). -/
theorem findFromEither_findFrom_left {a b hay : List Char} {p : Nat}
    (h : findFromEither a b hay 0 = some (p, true)) : findFrom a hay 0 = some p := by
  obtain ⟨_, hp, hm, _, hmin⟩ := findFromEither_some h
  simp at hm
  cases hf : findFrom a hay 0 with
  | none => exact absurd (findFrom_none hf p (by omega) hp) (by simp [hm])
  | some p' =>
    obtain ⟨_, _, hm', hmin'⟩ := findFrom_some hf
    rcases Nat.lt_trichotomy p' p with hlt | heq | hgt
    · exact absurd ((hmin p' (by omega) hlt).1) (by simp [hm'])
    · rw [heq]
    · exact absurd (hmin' p (by omega) hgt) (by simp [hm])

/-- Likewise for the delimited alternative. -/
theorem findFromEither_findFrom_right {a b hay : List Char} {p : Nat}
    (h : findFromEither a b hay 0 = some (p, false)) : findFrom b hay 0 = some p := by
  obtain ⟨_, hp, hm, _, hmin⟩ := findFromEither_some h
  simp at hm
  cases hf : findFrom b hay 0 with
  | none => exact absurd (findFrom_none hf p (by omega) hp) (by simp [hm])
  | some p' =>
    obtain ⟨_, _, hm', hmin'⟩ := findFrom_some hf
    rcases Nat.lt_trichotomy p' p with hlt | heq | hgt
    · exact absurd ((hmin p' (by omega) hlt).2) (by simp [hm'])
    · rw [heq]
    · exact absurd (hmin' p (by omega) hgt) (by simp [hm])

/-! ## Replacement lemmas -/

/-- Without a dollar character the JS replacement string is taken literally. -/
theorem getSubstitution_noDollar {repl : List Char} (matched pre post : List Char)
    (h : noDollar repl) : getSubstitution matched pre post repl = repl := by
  induction repl with
  | nil => simp [getSubstitution]
  | cons c rest ih =>
    have hc : c ≠ '$' := fun he => h (he ▸ List.mem_cons_self c rest)
    have hrest : noDollar rest := fun hm => h (List.mem_cons_of_mem c hm)
    cases rest with
    | nil => simp [getSubstitution]
    | cons d rest2 => simp [getSubstitution, hc, ih hrest]

theorem stringReplace_eq {hay needle : List Char} {p : Nat} (repl : List Char)
    (h : findFrom needle hay 0 = some p) :
    stringReplace hay needle repl =
      hay.take p ++ getSubstitution needle (hay.take p) (hay.drop (p + needle.length)) repl
        ++ hay.drop (p + needle.length) := by
  simp [stringReplace, h]

/-- A unit match count pins down a (first) occurrence. -/
theorem jsMatchCount_one_findFrom {pattern hay : List Char}
    (h : jsMatchCount pattern hay = 1) : ∃ p, findFrom pattern hay 0 = some p := by
  rw [jsMatchCount] at h
  rcases hf : findFrom pattern hay 0 with _ | p
  · simp [matchCountAux, hf] at h
  · exact ⟨p, rfl⟩

/-- A zero match count means no occurrence at all. -/
theorem jsMatchCount_zero_iff {pattern hay : List Char} (hne : pattern ≠ []) :
    jsMatchCount pattern hay = 0 ↔ countOcc pattern hay = 0 := by
  rw [jsMatchCount]
  constructor
  · intro h
    rcases hf : findFrom pattern hay 0 with _ | p
    · have hnone := findFrom_none hf
      rw [countOcc, List.length_eq_zero, List.filter_eq_nil]
      intro q hq
      have hq' : q ≤ hay.length := by
        have := List.mem_range.mp hq
        omega
      simp [hnone q (by omega) hq']
    · simp [matchCountAux, hf] at h
  · intro h
    rcases hf : findFrom pattern hay 0 with _ | p
    · simp [matchCountAux, hf]
    · obtain ⟨_, hp, hm, _⟩ := findFrom_some hf
      rw [countOcc, List.length_eq_zero, List.filter_eq_nil] at h
      exact absurd hm (by simpa using h p (List.mem_range.mpr (by omega)))

/-- A document with exactly one occurrence of the pattern. -/
theorem countOcc_one_unique {pattern hay : List Char}
    (h : countOcc pattern hay = 1) :
    ∃ q, matchAt pattern hay q = true ∧ q ≤ hay.length ∧
      ∀ q', matchAt pattern hay q' = true → q' ≤ hay.length → q' = q := by
  rw [countOcc] at h
  obtain ⟨q, hq⟩ := List.length_eq_one.mp h
  have hqmem : q ∈ (List.range (hay.length + 1)).filter (fun p => matchAt pattern hay p) := by
    simp [hq]
  rw [List.mem_filter, List.mem_range] at hqmem
  refine ⟨q, by simpa using hqmem.2, by omega, fun q' hq1 hq2 => ?_⟩
  have : q' ∈ (List.range (hay.length + 1)).filter (fun p => matchAt pattern hay p) := by
    rw [List.mem_filter, List.mem_range]
    exact ⟨by omega, by simpa using hq1⟩
  rw [hq] at this
  simpa using this

/-- On a pattern with exactly one occurrence, the global regex replacement is
the single splice at that occurrence. -/
theorem replaceAllLit_of_unique {pattern hay : List Char} (repl : List Char)
    (hne : pattern ≠ []) (h : countOcc pattern hay = 1) :
    ∃ q, findFrom pattern hay 0 = some q ∧ matchAt pattern hay q = true ∧
      replaceAllLit pattern repl hay =
        hay.take q ++ getSubstitution pattern (hay.take q) (hay.drop (q + pattern.length)) repl
          ++ hay.drop (q + pattern.length) := by
  obtain ⟨q0, hm0, hq0, huniq⟩ := countOcc_one_unique h
  obtain ⟨q, hfq⟩ := findFrom_complete (Nat.zero_le q0) hq0 hm0
  obtain ⟨_, hqle, hmq, _⟩ := findFrom_some hfq
  have hqq0 : q = q0 := huniq q hmq hqle
  subst hqq0
  have hplen : 0 < pattern.length := List.length_pos.mpr hne
  have hfit : q + pattern.length ≤ hay.length := matchAt_le_length hne hm0
  have hlen1 : 1 ≤ hay.length := by omega
  obtain ⟨m, hm⟩ : ∃ m, hay.length = m + 1 := ⟨hay.length - 1, by omega⟩
  have hnone : findFrom pattern hay (q + pattern.length) = none := by
    rcases hf2 : findFrom pattern hay (q + pattern.length) with _ | p2
    · rfl
    · obtain ⟨hge, hle2, hm2, _⟩ := findFrom_some hf2
      have : p2 = q := huniq p2 hm2 hle2
      omega
  refine ⟨q, hfq, hm0, ?_⟩
  have htail : replaceAllAux pattern repl hay (m + 1) (q + pattern.length) =
      hay.drop (q + pattern.length) := by
    rw [replaceAllAux, hnone]
  rw [replaceAllLit, if_neg hne, hm]
  show replaceAllAux pattern repl hay (m + 1 + 1) 0 = _
  rw [replaceAllAux, hfq]
  simp [htail]

/-! ## Line splitting and joining lemmas -/

theorem take_append_add (u v : List Char) (k : Nat) :
    (u ++ v).take (u.length + k) = u ++ v.take k := by
  rw [List.take_append_eq_append_take]
  have h1 : u.take (u.length + k) = u := List.take_of_length_le (by omega)
  have h2 : u.length + k - u.length = k := by omega
  rw [h1, h2]

theorem drop_append_add (u v : List Char) (k : Nat) :
    (u ++ v).drop (u.length + k) = v.drop k := by
  rw [List.drop_append_eq_append_drop]
  have h1 : u.drop (u.length + k) = [] := List.drop_eq_nil_of_le (by omega)
  have h2 : u.length + k - u.length = k := by omega
  rw [h1, h2, List.nil_append]

theorem take_append_le (u v : List Char) (k : Nat) (h : k ≤ u.length) :
    (u ++ v).take k = u.take k := by
  rw [List.take_append_eq_append_take]
  have h1 : k - u.length = 0 := by omega
  simp [h1]

theorem drop_append_le (u v : List Char) (k : Nat) (h : k ≤ u.length) :
    (u ++ v).drop k = u.drop k ++ v := by
  rw [List.drop_append_eq_append_drop]
  have h1 : k - u.length = 0 := by omega
  simp [h1]

theorem splitLines_ne_nil (s : List Char) : splitLines s ≠ [] := by
  cases s with
  | nil => simp [splitLines]
  | cons c rest =>
    rw [splitLines]
    by_cases hc : c = '\n'
    · simp [hc]
    · rcases hsp : splitLines rest with _ | ⟨l, ls⟩ <;> simp [hc, hsp]

theorem joinLines_cons_head (c : Char) (l : List Char) (ls : List (List Char)) :
    joinLines ((c :: l) :: ls) = c :: joinLines (l :: ls) := by
  cases ls <;> simp [joinLines]

theorem splitLines_cons_newline (rest : List Char) :
    splitLines ('\n' :: rest) = [] :: splitLines rest := by
  rw [splitLines]; simp

theorem splitLines_cons_char (c : Char) (rest : List Char) (hc : c ≠ '\n')
    (l : List Char) (ls : List (List Char)) (hsp : splitLines rest = l :: ls) :
    splitLines (c :: rest) = (c :: l) :: ls := by
  rw [splitLines]; simp [hc, hsp]

theorem joinLines_cons_nil_head (L : List (List Char)) (h : L ≠ []) :
    joinLines ([] :: L) = '\n' :: joinLines L := by
  cases L with
  | nil => exact absurd rfl h
  | cons m ms => simp [joinLines]

/-- `split` then `join` is the identity (the strategy-2 reassembly is exact). -/
theorem joinLines_splitLines (s : List Char) : joinLines (splitLines s) = s := by
  induction s with
  | nil => simp [splitLines, joinLines]
  | cons c rest ih =>
    by_cases hc : c = '\n'
    · subst hc
      rw [splitLines_cons_newline, joinLines_cons_nil_head _ (splitLines_ne_nil rest), ih]
    · rcases hsp : splitLines rest with _ | ⟨l, ls⟩
      · exact absurd hsp (splitLines_ne_nil rest)
      · rw [splitLines_cons_char c rest hc l ls hsp, joinLines_cons_head, ← hsp, ih]

/-- Editing one line in place and rejoining is a single splice in the joined
document, located at the line's offset. -/
theorem joinLines_set_splice (LS : List (List Char)) :
    ∀ (li : Nat), li < LS.length →
      ∀ (q n : Nat) (R : List Char), q + n ≤ (LS.getD li []).length →
        joinLines (LS.set li ((LS.getD li []).take q ++ R ++ (LS.getD li []).drop (q + n)))
          = (joinLines LS).take (lineOffset LS li + q) ++ R
              ++ (joinLines LS).drop (lineOffset LS li + q + n) := by
  induction LS with
  | nil => intro li hli; simp at hli
  | cons l ls ih =>
    intro li hli q n R hqn
    cases li with
    | zero =>
      simp only [List.getD_cons_zero] at hqn ⊢
      rw [List.set_cons_zero]
      cases ls with
      | nil => simp [joinLines, lineOffset]
      | cons m ms =>
        have hq : q ≤ l.length := by omega
        have hX : joinLines ((l.take q ++ R ++ l.drop (q + n)) :: m :: ms)
            = (l.take q ++ R ++ l.drop (q + n)) ++ '\n' :: joinLines (m :: ms) := by
          simp [joinLines]
        have hJ : joinLines (l :: m :: ms) = l ++ '\n' :: joinLines (m :: ms) := by
          simp [joinLines]
        rw [hX, hJ]
        simp only [lineOffset, Nat.zero_add]
        rw [take_append_le l ('\n' :: joinLines (m :: ms)) q hq,
            drop_append_le l ('\n' :: joinLines (m :: ms)) (q + n) hqn]
        simp [List.append_assoc]
    | succ li' =>
      have hli' : li' < ls.length := by simpa using hli
      simp only [List.getD_cons_succ] at hqn ⊢
      rw [List.set_cons_succ]
      cases ls with
      | nil => simp at hli'
      | cons m ms =>
        have hset : ∃ y ys,
            (m :: ms).set li' (((m :: ms).getD li' []).take q ++ R
              ++ ((m :: ms).getD li' []).drop (q + n)) = y :: ys := by
          cases li' with
          | zero => exact ⟨_, ms, rfl⟩
          | succ k => exact ⟨m, _, rfl⟩
        obtain ⟨y, ys, hys⟩ := hset
        have hL : joinLines (l :: (m :: ms).set li' (((m :: ms).getD li' []).take q ++ R
              ++ ((m :: ms).getD li' []).drop (q + n)))
            = l ++ '\n' :: joinLines ((m :: ms).set li' (((m :: ms).getD li' []).take q ++ R
              ++ ((m :: ms).getD li' []).drop (q + n))) := by
          rw [hys]; simp [joinLines]
        have hR : joinLines (l :: m :: ms) = l ++ '\n' :: joinLines (m :: ms) := by
          simp [joinLines]
        rw [hL, hR, ih li' hli' q n R hqn]
        simp only [lineOffset]
        have e1 : l.length + 1 + lineOffset (m :: ms) li' + q
            = l.length + (1 + (lineOffset (m :: ms) li' + q)) := by omega
        have e2 : l.length + 1 + lineOffset (m :: ms) li' + q + n
            = l.length + (1 + (lineOffset (m :: ms) li' + q + n)) := by omega
        rw [e2, e1, take_append_add, drop_append_add]
        have e3 : 1 + (lineOffset (m :: ms) li' + q) = (lineOffset (m :: ms) li' + q) + 1 := by
          omega
        have e4 : 1 + (lineOffset (m :: ms) li' + q + n)
            = (lineOffset (m :: ms) li' + q + n) + 1 := by omega
        rw [e3, e4, List.take_succ_cons, List.drop_succ_cons]
        simp [List.append_assoc]

/-- An occurrence inside one of the lines is an occurrence in the joined
document, at the line's offset. -/
theorem matchAt_joinLines (LS : List (List Char)) :
    ∀ (li : Nat), li < LS.length → ∀ (t : List Char) (q : Nat),
      matchAt t (LS.getD li []) q = true → q + t.length ≤ (LS.getD li []).length →
      matchAt t (joinLines LS) (lineOffset LS li + q) = true := by
  induction LS with
  | nil => intro li hli; simp at hli
  | cons l ls ih =>
    intro li hli t q hm hb
    cases li with
    | zero =>
      simp only [List.getD_cons_zero] at hm hb
      cases ls with
      | nil => simpa [joinLines, lineOffset] using hm
      | cons m ms =>
        have hJ : joinLines (l :: m :: ms) = l ++ '\n' :: joinLines (m :: ms) := by
          simp [joinLines]
        rw [hJ]
        simp only [lineOffset, Nat.zero_add]
        exact matchAt_append_right _ hm hb
    | succ li' =>
      have hli' : li' < ls.length := by simpa using hli
      simp only [List.getD_cons_succ] at hm hb
      cases ls with
      | nil => simp at hli'
      | cons m ms =>
        have hJ : joinLines (l :: m :: ms) = (l ++ ['\n']) ++ joinLines (m :: ms) := by
          simp [joinLines]
        rw [hJ]
        have hstep := matchAt_append_left (l ++ ['\n']) (ih li' hli' t q hm hb)
        have e : lineOffset (l :: m :: ms) (li' + 1) + q
            = (l ++ ['\n']).length + (lineOffset (m :: ms) li' + q) := by
          simp [lineOffset]; omega
        rw [e]
        exact hstep

/-! ## Escaping lemmas -/

theorem patDenote_cons_plain (c : Char) (tail : List Char) (hc : c ∉ metachars) :
    patDenote (c :: tail) = (patDenote tail).map (fun l => c :: l) := by
  have hcb : c ≠ '\\' := fun he => hc (he ▸ (by simp [metachars]))
  cases tail with
  | nil => simp [patDenote, hc]
  | cons d rest => simp [patDenote, hcb, hc]

theorem patDenote_cons_escape (d : Char) (tail : List Char) (hd : d ∈ metachars) :
    patDenote ('\\' :: d :: tail) = (patDenote tail).map (fun l => d :: l) := by
  simp [patDenote, hd]

/-- An escaped string, followed by anything, denotes itself followed by the
denotation of the remainder: `getEscapedText` makes every character literal. -/
theorem patDenote_escape_append (s p : List Char) :
    patDenote (getEscapedText s ++ p) = (patDenote p).map (fun l => s ++ l) := by
  induction s with
  | nil =>
    simp only [getEscapedText, List.flatMap_nil, List.nil_append]
    cases patDenote p <;> simp
  | cons c cs ih =>
    by_cases hc : c ∈ metachars
    · have hg : getEscapedText (c :: cs) = '\\' :: c :: getEscapedText cs := by
        simp [getEscapedText, hc]
      rw [hg, List.cons_append, List.cons_append, patDenote_cons_escape c _ hc, ih]
      cases patDenote p <;> simp
    · have hg : getEscapedText (c :: cs) = c :: getEscapedText cs := by
        simp [getEscapedText, hc]
      rw [hg, List.cons_append, patDenote_cons_plain c _ hc, ih]
      cases patDenote p <;> simp

theorem patDenote_escape (s : List Char) : patDenote (getEscapedText s) = some s := by
  have h := patDenote_escape_append s []
  simpa [patDenote] using h

theorem patDenote_escape_three (b t a : List Char) :
    patDenote (getEscapedText b ++ getEscapedText t ++ getEscapedText a)
      = some (b ++ t ++ a) := by
  rw [List.append_assoc, patDenote_escape_append, patDenote_escape_append, patDenote_escape]
  simp

/-! ## Shapes of successful toggle results -/

/-- `nc` is `c` with one occurrence of `needle` replaced by the JS-expanded
form of the replacement string `replSpec` (expanded against the whole
document, as the document-level `replace` calls do). -/
def SingleSplice (c nc needle replSpec : List Char) : Prop :=
  ∃ i, matchAt needle c i = true ∧
    nc = c.take i
      ++ getSubstitution needle (c.take i) (c.drop (i + needle.length)) replSpec
      ++ c.drop (i + needle.length)

/-- `nc` is `c` with one occurrence of `needle` replaced by some string, which
is the literal `replSpec` whenever `replSpec` has no dollar character (the
line-based strategies expand `$`-sequences against line-local context). -/
def LineSplice (c nc needle replSpec : List Char) : Prop :=
  ∃ i r, matchAt needle c i = true
    ∧ nc = c.take i ++ r ++ c.drop (i + needle.length)
    ∧ (noDollar replSpec → r = replSpec)

theorem highlightedVersion_ne_nil (t : List Char) : highlightedVersion t ≠ [] := by
  simp [highlightedVersion]

theorem exactPattern_ne_nil (B t A : List Char) :
    B ++ highlightedVersion t ++ A ≠ [] := by
  simp [highlightedVersion]

/-- The fresh-cache toggle is the dispatch on the detector verdict. -/
theorem processHighlightToggle_eq (content t : List Char) (pos : PositionInfo) (flag : Bool) :
    processHighlightToggle content t pos flag =
      if flag then removeHighlightOptimized content t pos
      else addHighlightOptimized content t pos := by
  cases flag with
  | true =>
    rcases h : removeHighlightOptimizedFrom 0 content t pos with ⟨r, l2x⟩
    simp [processHighlightToggle, processHighlightToggleFrom, removeHighlightOptimized, h]
  | false =>
    rcases h : addHighlightOptimizedFrom 0 content t pos with ⟨r, l1x⟩
    simp [processHighlightToggle, processHighlightToggleFrom, addHighlightOptimized, h]

/-- Shape of a strategy-2 add success. -/
theorem addStrategy2_some {content t : List Char} {ln : Option Int} {r : ToggleResult}
    (h : addStrategy2 content t ln = some r) :
    r.success = true ∧ r.error = none ∧ r.action = some ToggleAction.added ∧
      ∃ nc, r.newContent = some nc ∧ LineSplice content nc t (highlightedVersion t) := by
  cases ln with
  | none => simp [addStrategy2] at h
  | some li =>
    simp only [addStrategy2] at h
    split at h
    · split at h
      · rename_i hg hcs
        have hr := Option.some.inj h
        subst hr
        have hli : li.toNat < (splitLines content).length := by omega
        rcases hfq : findFrom t ((splitLines content).getD li.toNat []) 0 with _ | q
        · rw [containsSub, hfq] at hcs; simp at hcs
        · obtain ⟨_, _, hmq, _⟩ := findFrom_some hfq
          have hbound := findFrom_bound hfq
          have hsr := stringReplace_eq (highlightedVersion t) hfq
          have hsplice := joinLines_set_splice (splitLines content) li.toNat hli q t.length
            (getSubstitution t (((splitLines content).getD li.toNat []).take q)
              (((splitLines content).getD li.toNat []).drop (q + t.length))
              (highlightedVersion t)) hbound
          rw [joinLines_splitLines] at hsplice
          have hmc := matchAt_joinLines (splitLines content) li.toNat hli t q hmq hbound
          rw [joinLines_splitLines] at hmc
          refine ⟨rfl, rfl, rfl, _, rfl, ?_⟩
          refine ⟨lineOffset (splitLines content) li.toNat + q,
            getSubstitution t (((splitLines content).getD li.toNat []).take q)
              (((splitLines content).getD li.toNat []).drop (q + t.length))
              (highlightedVersion t), hmc, ?_, ?_⟩
          · rw [hsr, hsplice]
          · intro hnd
            exact getSubstitution_noDollar _ _ _ hnd
      · exact absurd h (by simp)
    · exact absurd h (by simp)

/-- Shape of a strategy-2 remove success. -/
theorem removeStrategy2_some {content t : List Char} {ln : Option Int} {r : ToggleResult}
    (h : removeStrategy2 content t ln = some r) :
    r.success = true ∧ r.error = none ∧ r.action = some ToggleAction.removed ∧
      ∃ nc, r.newContent = some nc ∧ LineSplice content nc (highlightedVersion t) t := by
  cases ln with
  | none => simp [removeStrategy2] at h
  | some li =>
    simp only [removeStrategy2] at h
    split at h
    · split at h
      · rename_i hg hcs
        have hr := Option.some.inj h
        subst hr
        have hli : li.toNat < (splitLines content).length := by omega
        rcases hfq : findFrom (highlightedVersion t) ((splitLines content).getD li.toNat []) 0
          with _ | q
        · rw [containsSub, hfq] at hcs; simp at hcs
        · obtain ⟨_, _, hmq, _⟩ := findFrom_some hfq
          have hbound := findFrom_bound hfq
          have hsr := stringReplace_eq t hfq
          have hsplice := joinLines_set_splice (splitLines content) li.toNat hli q
            (highlightedVersion t).length
            (getSubstitution (highlightedVersion t)
              (((splitLines content).getD li.toNat []).take q)
              (((splitLines content).getD li.toNat []).drop (q + (highlightedVersion t).length))
              t) hbound
          rw [joinLines_splitLines] at hsplice
          have hmc := matchAt_joinLines (splitLines content) li.toNat hli
            (highlightedVersion t) q hmq hbound
          rw [joinLines_splitLines] at hmc
          refine ⟨rfl, rfl, rfl, _, rfl, ?_⟩
          refine ⟨lineOffset (splitLines content) li.toNat + q,
            getSubstitution (highlightedVersion t)
              (((splitLines content).getD li.toNat []).take q)
              (((splitLines content).getD li.toNat []).drop
                (q + (highlightedVersion t).length)) t, hmc, ?_, ?_⟩
          · rw [hsr, hsplice]
          · intro hnd
            exact getSubstitution_noDollar _ _ _ hnd
      · exact absurd h (by simp)
    · exact absurd h (by simp)

/-- Every successful add is a single splice of one of the three strategies'
shapes. -/
theorem addHighlightOptimized_cases (content t B A : List Char) (ln : Option Int)
    (hs : (addHighlightOptimized content t ⟨B, A, ln⟩).success = true) :
    ∃ nc, (addHighlightOptimized content t ⟨B, A, ln⟩).newContent = some nc ∧
      (SingleSplice content nc (B ++ t ++ A) (B ++ highlightedVersion t ++ A)
       ∨ SingleSplice content nc (B ++ highlightedVersion t ++ A) (B ++ t ++ A)
       ∨ SingleSplice content nc t (highlightedVersion t)
       ∨ LineSplice content nc t (highlightedVersion t)) := by
  rcases hfe : findFromEither (B ++ t ++ A) (B ++ highlightedVersion t ++ A) content 0
    with _ | ⟨p, isBare⟩
  · have hred : addHighlightOptimized content t ⟨B, A, ln⟩ =
        match addStrategy2 content t ln with
        | some r => r
        | none => addStrategy3 content t := by
      simp only [addHighlightOptimized, addHighlightOptimizedFrom, execAlt, hfe]
      rcases addStrategy2 content t ln with _ | r <;> rfl
    rcases hs2 : addStrategy2 content t ln with _ | r
    · rw [hred, hs2] at hs ⊢
      simp only at hs ⊢
      unfold addStrategy3 at hs ⊢
      by_cases hcond : jsMatchCount t content = 1
          ∧ jsMatchCount (highlightedVersion t) content = 0
      · rw [if_pos hcond]
        obtain ⟨q, hq⟩ := jsMatchCount_one_findFrom hcond.1
        obtain ⟨_, _, hmq, _⟩ := findFrom_some hq
        exact ⟨_, rfl, Or.inr (Or.inr (Or.inl ⟨q, hmq, stringReplace_eq _ hq⟩))⟩
      · rw [if_neg hcond] at hs; simp at hs
    · rw [hred, hs2] at hs ⊢
      simp only at hs ⊢
      obtain ⟨_, _, _, nc, hnc, hls⟩ := addStrategy2_some hs2
      exact ⟨nc, hnc, Or.inr (Or.inr (Or.inr hls))⟩
  · cases isBare with
    | true =>
      have hred : addHighlightOptimized content t ⟨B, A, ln⟩ =
          { success := true,
            newContent := some (stringReplace content (B ++ t ++ A)
              (B ++ highlightedVersion t ++ A)),
            action := some ToggleAction.added } := by
        simp only [addHighlightOptimized, addHighlightOptimizedFrom, execAlt, hfe]
        simp
      have hff := findFromEither_findFrom_left hfe
      obtain ⟨_, _, hm, _⟩ := findFrom_some hff
      rw [hred]
      exact ⟨_, rfl, Or.inl ⟨p, hm, stringReplace_eq _ hff⟩⟩
    | false =>
      have hred : addHighlightOptimized content t ⟨B, A, ln⟩ =
          { success := true,
            newContent := some (stringReplace content (B ++ highlightedVersion t ++ A)
              (B ++ t ++ A)),
            action := some ToggleAction.removed } := by
        simp only [addHighlightOptimized, addHighlightOptimizedFrom, execAlt, hfe]
        simp
      have hff := findFromEither_findFrom_right hfe
      obtain ⟨_, _, hm, _⟩ := findFrom_some hff
      rw [hred]
      exact ⟨_, rfl, Or.inr (Or.inl ⟨p, hm, stringReplace_eq _ hff⟩)⟩

/-- Every successful remove is the global exact-context replacement or a
single splice of one of the fallback strategies' shapes. -/
theorem removeHighlightOptimized_cases (content t B A : List Char) (ln : Option Int)
    (hs : (removeHighlightOptimized content t ⟨B, A, ln⟩).success = true) :
    ∃ nc, (removeHighlightOptimized content t ⟨B, A, ln⟩).newContent = some nc ∧
      ((nc = replaceAllLit (B ++ highlightedVersion t ++ A) (B ++ t ++ A) content
          ∧ (countOcc (B ++ highlightedVersion t ++ A) content = 1 →
              SingleSplice content nc (B ++ highlightedVersion t ++ A) (B ++ t ++ A)))
       ∨ SingleSplice content nc (highlightedVersion t) t
       ∨ LineSplice content nc (highlightedVersion t) t) := by
  rcases hft : findFrom (B ++ highlightedVersion t ++ A) content 0 with _ | p
  · have hred : removeHighlightOptimized content t ⟨B, A, ln⟩ =
        match removeStrategy2 content t ln with
        | some r => r
        | none => removeStrategy3 content t := by
      simp only [removeHighlightOptimized, removeHighlightOptimizedFrom, regexTest, hft]
      rcases removeStrategy2 content t ln with _ | r <;> rfl
    rcases hs2 : removeStrategy2 content t ln with _ | r
    · rw [hred, hs2] at hs ⊢
      simp only at hs ⊢
      unfold removeStrategy3 at hs ⊢
      by_cases hcond : jsMatchCount (highlightedVersion t) content = 1
      · rw [if_pos hcond]
        obtain ⟨q, hq⟩ := jsMatchCount_one_findFrom hcond
        obtain ⟨_, _, hmq, _⟩ := findFrom_some hq
        exact ⟨_, rfl, Or.inr (Or.inl ⟨q, hmq, stringReplace_eq _ hq⟩)⟩
      · rw [if_neg hcond] at hs; simp at hs
    · rw [hred, hs2] at hs ⊢
      simp only at hs ⊢
      obtain ⟨_, _, _, nc, hnc, hls⟩ := removeStrategy2_some hs2
      exact ⟨nc, hnc, Or.inr (Or.inr hls)⟩
  · have hred : removeHighlightOptimized content t ⟨B, A, ln⟩ =
        { success := true,
          newContent := some (replaceAllLit (B ++ highlightedVersion t ++ A)
            (B ++ t ++ A) content),
          action := some ToggleAction.removed } := by
      simp only [removeHighlightOptimized, removeHighlightOptimizedFrom, regexTest, hft]
    rw [hred]
    refine ⟨_, rfl, Or.inl ⟨rfl, fun hcount => ?_⟩⟩
    obtain ⟨q, _, hmq, heq⟩ := replaceAllLit_of_unique (B ++ t ++ A)
      (exactPattern_ne_nil B t A) hcount
    exact ⟨q, hmq, heq⟩

theorem processHighlightToggle_false (content t : List Char) (pos : PositionInfo) :
    processHighlightToggle content t pos false = addHighlightOptimized content t pos := by
  rw [processHighlightToggle_eq]; simp

theorem processHighlightToggle_true (content t : List Char) (pos : PositionInfo) :
    processHighlightToggle content t pos true = removeHighlightOptimized content t pos := by
  rw [processHighlightToggle_eq]; simp

/-! ## Claim theorems -/

/-- C1 (counterexample).  The claim that every successful toggle changes the
number of occurrences of the delimited form by exactly ±1 and alters nothing
outside a single substituted region is false: (a) a remove through the
exact-context strategy substitutes every occurrence of the pattern, here
taking the count of `==x==` from 2 to 0 in one "successful" call; (b) an add
can merge the inserted delimiters with adjacent `=` characters, leaving the
count of `==x==` unchanged (1 before, 1 after) although the action is
"added". -/
theorem c1_count_invariant_counterexample :
    (processHighlightToggle (("==x== ==x==").toList) (("x").toList) ⟨[], [], none⟩ true
        = { success := true, newContent := some (("x x").toList),
            action := some ToggleAction.removed, error := none }
      ∧ countOcc (("==x==").toList) (("==x== ==x==").toList) = 2
      ∧ countOcc (("==x==").toList) (("x x").toList) = 0)
    ∧ (processHighlightToggle (("==x==x").toList) (("x").toList)
          ⟨("=").toList, [], none⟩ false
        = { success := true, newContent := some (("====x====x").toList),
            action := some ToggleAction.added, error := none }
      ∧ countOcc (("==x==").toList) (("==x==x").toList) = 1
      ∧ countOcc (("==x==").toList) (("====x====x").toList) = 1) := by
  exact ⟨⟨by decide, by decide, by decide⟩, ⟨by decide, by decide, by decide⟩⟩

/-- C1 (amended): a successful toggle replaces the matched region(s) and
nothing else.  Every add success and every remove success through the line or
global fallbacks substitutes exactly one occurrence of the relevant needle
(bare or delimited form, with or without the context around it); a remove
success through the exact-context strategy substitutes every occurrence of
the exact pattern, which is again a single splice when that pattern occurs
exactly once.  The ±1 change of the delimited-form count does not hold in
general. -/
theorem c1_toggle_success_single_region (content t B A : List Char) (ln : Option Int)
    (flag : Bool)
    (hs : (processHighlightToggle content t ⟨B, A, ln⟩ flag).success = true) :
    ∃ nc, (processHighlightToggle content t ⟨B, A, ln⟩ flag).newContent = some nc ∧
      (SingleSplice content nc (B ++ t ++ A) (B ++ highlightedVersion t ++ A)
       ∨ SingleSplice content nc (B ++ highlightedVersion t ++ A) (B ++ t ++ A)
       ∨ SingleSplice content nc t (highlightedVersion t)
       ∨ SingleSplice content nc (highlightedVersion t) t
       ∨ LineSplice content nc t (highlightedVersion t)
       ∨ LineSplice content nc (highlightedVersion t) t
       ∨ (nc = replaceAllLit (B ++ highlightedVersion t ++ A) (B ++ t ++ A) content
           ∧ (countOcc (B ++ highlightedVersion t ++ A) content = 1 →
               SingleSplice content nc (B ++ highlightedVersion t ++ A) (B ++ t ++ A)))) := by
  cases flag with
  | false =>
    rw [processHighlightToggle_false] at hs ⊢
    obtain ⟨nc, hnc, hd⟩ := addHighlightOptimized_cases content t B A ln hs
    refine ⟨nc, hnc, ?_⟩
    rcases hd with h | h | h | h
    · exact Or.inl h
    · exact Or.inr (Or.inl h)
    · exact Or.inr (Or.inr (Or.inl h))
    · exact Or.inr (Or.inr (Or.inr (Or.inr (Or.inl h))))
  | true =>
    rw [processHighlightToggle_true] at hs ⊢
    obtain ⟨nc, hnc, hd⟩ := removeHighlightOptimized_cases content t B A ln hs
    refine ⟨nc, hnc, ?_⟩
    rcases hd with h | h | h
    · exact Or.inr (Or.inr (Or.inr (Or.inr (Or.inr (Or.inr h)))))
    · exact Or.inr (Or.inr (Or.inr (Or.inl h)))
    · exact Or.inr (Or.inr (Or.inr (Or.inr (Or.inr (Or.inl h)))))

/-- Witness for the amended C1 on the specification's own scenario. -/
theorem c1_toggle_success_single_region_witness :
    (processHighlightToggle (("The cat sat.").toList) (("cat").toList)
        ⟨("The ").toList, (" sat.").toList, none⟩ false).success = true ∧
    ∃ nc, (processHighlightToggle (("The cat sat.").toList) (("cat").toList)
        ⟨("The ").toList, (" sat.").toList, none⟩ false).newContent = some nc ∧
      (SingleSplice (("The cat sat.").toList) nc
          (("The ").toList ++ ("cat").toList ++ (" sat.").toList)
          (("The ").toList ++ highlightedVersion (("cat").toList) ++ (" sat.").toList)
       ∨ SingleSplice (("The cat sat.").toList) nc
          (("The ").toList ++ highlightedVersion (("cat").toList) ++ (" sat.").toList)
          (("The ").toList ++ ("cat").toList ++ (" sat.").toList)
       ∨ SingleSplice (("The cat sat.").toList) nc (("cat").toList)
          (highlightedVersion (("cat").toList))
       ∨ SingleSplice (("The cat sat.").toList) nc (highlightedVersion (("cat").toList))
          (("cat").toList)
       ∨ LineSplice (("The cat sat.").toList) nc (("cat").toList)
          (highlightedVersion (("cat").toList))
       ∨ LineSplice (("The cat sat.").toList) nc (highlightedVersion (("cat").toList))
          (("cat").toList)
       ∨ (nc = replaceAllLit
            (("The ").toList ++ highlightedVersion (("cat").toList) ++ (" sat.").toList)
            (("The ").toList ++ ("cat").toList ++ (" sat.").toList) (("The cat sat.").toList)
           ∧ (countOcc (("The ").toList ++ highlightedVersion (("cat").toList)
                ++ (" sat.").toList) (("The cat sat.").toList) = 1 →
               SingleSplice (("The cat sat.").toList) nc
                 (("The ").toList ++ highlightedVersion (("cat").toList) ++ (" sat.").toList)
                 (("The ").toList ++ ("cat").toList ++ (" sat.").toList)))) :=
  ⟨by decide,
    c1_toggle_success_single_region (("The cat sat.").toList) (("cat").toList)
      (("The ").toList) ((" sat.").toList) none false (by decide)⟩

/-- C3: the rendered-mode toggle is not a pure function of
(document, selection, context).  The cached context regex is compiled with
the `g` flag, so a successful `exec` leaves its `lastIndex` at the end of the
match; a second call with identical inputs then starts the exact-context
search past the previous match, misses, and falls through to the global
fallback, which fails because the text occurs twice.  The first call returns
a successful "added" result and leaves `lastIndex = 7`; the repeated
identical call returns an ambiguity failure. -/
theorem c3_cached_regex_state_changes_result :
    addHighlightOptimizedFrom 0 (("a cat b cat").toList) (("cat").toList)
        ⟨("a ").toList, (" b").toList, none⟩
      = ({ success := true, newContent := some (("a ==cat== b cat").toList),
           action := some ToggleAction.added, error := none }, 7)
    ∧ addHighlightOptimizedFrom 7 (("a cat b cat").toList) (("cat").toList)
        ⟨("a ").toList, (" b").toList, none⟩
      = ({ success := false, newContent := none, action := none,
           error := some errorAmbiguousAdd }, 0) := by
  exact ⟨by decide, by decide⟩

/-- C10: the detector can report "not highlighted" while the add path undoes a
highlight.  The detection cache is keyed by selection and context only — not
by the document — so after a first call on the bare document `cat` stores
`false`, the same key is a stale hit on the later document `==cat==`; the
toggle then takes the add path, whose alternation matches the delimited
alternative first and strips the delimiters, returning success with action
"removed". -/
theorem c10_add_path_returns_removed :
    isHighlightedFrom [] 0 (("cat").toList) (("cat").toList) ⟨[], [], none⟩
      = (false, [(detectKey (("cat").toList) [] [], false)], 0)
    ∧ (isHighlightedFrom [(detectKey (("cat").toList) [] [], false)] 0
        (("==cat==").toList) (("cat").toList) ⟨[], [], none⟩).1 = false
    ∧ processHighlightToggle (("==cat==").toList) (("cat").toList) ⟨[], [], none⟩ false
      = { success := true, newContent := some (("cat").toList),
          action := some ToggleAction.removed, error := none } := by
  exact ⟨by decide, by decide, by decide⟩

theorem addHighlightOptimized_failure {content t B A : List Char} {ln : Option Int}
    (hs : (addHighlightOptimized content t ⟨B, A, ln⟩).success = false) :
    addHighlightOptimized content t ⟨B, A, ln⟩
      = { success := false, error := some errorAmbiguousAdd } := by
  rcases hfe : findFromEither (B ++ t ++ A) (B ++ highlightedVersion t ++ A) content 0
    with _ | ⟨p, isBare⟩
  · have hred : addHighlightOptimized content t ⟨B, A, ln⟩ =
        match addStrategy2 content t ln with
        | some r => r
        | none => addStrategy3 content t := by
      simp only [addHighlightOptimized, addHighlightOptimizedFrom, execAlt, hfe]
      rcases addStrategy2 content t ln with _ | r <;> rfl
    rcases hs2 : addStrategy2 content t ln with _ | r
    · rw [hred, hs2] at hs ⊢
      simp only at hs ⊢
      unfold addStrategy3 at hs ⊢
      by_cases hcond : jsMatchCount t content = 1
          ∧ jsMatchCount (highlightedVersion t) content = 0
      · rw [if_pos hcond] at hs; simp at hs
      · rw [if_neg hcond]
    · rw [hred, hs2] at hs
      simp only at hs
      obtain ⟨h1, _⟩ := addStrategy2_some hs2
      rw [h1] at hs; simp at hs
  · exfalso
    cases isBare with
    | true =>
      have : (addHighlightOptimized content t ⟨B, A, ln⟩).success = true := by
        simp only [addHighlightOptimized, addHighlightOptimizedFrom, execAlt, hfe]
      rw [this] at hs; simp at hs
    | false =>
      have : (addHighlightOptimized content t ⟨B, A, ln⟩).success = true := by
        simp only [addHighlightOptimized, addHighlightOptimizedFrom, execAlt, hfe]
      rw [this] at hs; simp at hs

theorem removeHighlightOptimized_failure {content t B A : List Char} {ln : Option Int}
    (hs : (removeHighlightOptimized content t ⟨B, A, ln⟩).success = false) :
    removeHighlightOptimized content t ⟨B, A, ln⟩
      = { success := false, error := some errorAmbiguousRemove } := by
  rcases hft : findFrom (B ++ highlightedVersion t ++ A) content 0 with _ | p
  · have hred : removeHighlightOptimized content t ⟨B, A, ln⟩ =
        match removeStrategy2 content t ln with
        | some r => r
        | none => removeStrategy3 content t := by
      simp only [removeHighlightOptimized, removeHighlightOptimizedFrom, regexTest, hft]
      rcases removeStrategy2 content t ln with _ | r <;> rfl
    rcases hs2 : removeStrategy2 content t ln with _ | r
    · rw [hred, hs2] at hs ⊢
      simp only at hs ⊢
      unfold removeStrategy3 at hs ⊢
      by_cases hcond : jsMatchCount (highlightedVersion t) content = 1
      · rw [if_pos hcond] at hs; simp at hs
      · rw [if_neg hcond]
    · rw [hred, hs2] at hs
      simp only at hs
      obtain ⟨h1, _⟩ := removeStrategy2_some hs2
      rw [h1] at hs; simp at hs
  · exfalso
    have : (removeHighlightOptimized content t ⟨B, A, ln⟩).success = true := by
      simp only [removeHighlightOptimized, removeHighlightOptimizedFrom, regexTest, hft]
    rw [this] at hs; simp at hs

/-- C6: every failing toggle carries one of the two ambiguity messages and
produces no replacement content (so the caller's `success && newContent`
guard never writes); and when no strategy yields a target — the exact-context
search misses, the line fallback falls through, and the global-uniqueness
condition fails — the toggle does fail with the ambiguity error. -/
theorem c6_failure_is_ambiguity_no_mutation (content t B A : List Char) (ln : Option Int) :
    (∀ flag : Bool, (processHighlightToggle content t ⟨B, A, ln⟩ flag).success = false →
      (processHighlightToggle content t ⟨B, A, ln⟩ flag).newContent = none
        ∧ (processHighlightToggle content t ⟨B, A, ln⟩ flag).action = none
        ∧ ((processHighlightToggle content t ⟨B, A, ln⟩ flag).error = some errorAmbiguousAdd
            ∨ (processHighlightToggle content t ⟨B, A, ln⟩ flag).error
                = some errorAmbiguousRemove))
    ∧ (findFromEither (B ++ t ++ A) (B ++ highlightedVersion t ++ A) content 0 = none →
        addStrategy2 content t ln = none →
        ¬(jsMatchCount t content = 1 ∧ jsMatchCount (highlightedVersion t) content = 0) →
        processHighlightToggle content t ⟨B, A, ln⟩ false
          = { success := false, error := some errorAmbiguousAdd })
    ∧ (findFrom (B ++ highlightedVersion t ++ A) content 0 = none →
        removeStrategy2 content t ln = none →
        jsMatchCount (highlightedVersion t) content ≠ 1 →
        processHighlightToggle content t ⟨B, A, ln⟩ true
          = { success := false, error := some errorAmbiguousRemove }) := by
  refine ⟨?_, ?_, ?_⟩
  · intro flag hs
    cases flag with
    | false =>
      rw [processHighlightToggle_false] at hs ⊢
      rw [addHighlightOptimized_failure hs]
      exact ⟨rfl, rfl, Or.inl rfl⟩
    | true =>
      rw [processHighlightToggle_true] at hs ⊢
      rw [removeHighlightOptimized_failure hs]
      exact ⟨rfl, rfl, Or.inr rfl⟩
  · intro hfe hs2 hcond
    rw [processHighlightToggle_false]
    have hred : addHighlightOptimized content t ⟨B, A, ln⟩ =
        match addStrategy2 content t ln with
        | some r => r
        | none => addStrategy3 content t := by
      simp only [addHighlightOptimized, addHighlightOptimizedFrom, execAlt, hfe]
      rcases addStrategy2 content t ln with _ | r <;> rfl
    rw [hred, hs2]
    simp only
    unfold addStrategy3
    rw [if_neg hcond]
  · intro hft hs2 hcond
    rw [processHighlightToggle_true]
    have hred : removeHighlightOptimized content t ⟨B, A, ln⟩ =
        match removeStrategy2 content t ln with
        | some r => r
        | none => removeStrategy3 content t := by
      simp only [removeHighlightOptimized, removeHighlightOptimizedFrom, regexTest, hft]
      rcases removeStrategy2 content t ln with _ | r <;> rfl
    rw [hred, hs2]
    simp only
    unfold removeStrategy3
    rw [if_neg hcond]

/-- Witness for C6: on a document with two indistinguishable occurrences and
a context that matches nowhere, both the add and the remove toggles fail with
their ambiguity errors and produce no content. -/
theorem c6_failure_is_ambiguity_no_mutation_witness :
    (processHighlightToggle (("x x").toList) (("x").toList)
        ⟨("Q").toList, [], none⟩ false
      = { success := false, error := some errorAmbiguousAdd })
    ∧ (processHighlightToggle (("x x").toList) (("x").toList)
        ⟨("Q").toList, [], none⟩ true
      = { success := false, error := some errorAmbiguousRemove }) :=
  ⟨(c6_failure_is_ambiguity_no_mutation (("x x").toList) (("x").toList)
      (("Q").toList) [] none).2.1 (by decide) (by decide) (by decide),
   (c6_failure_is_ambiguity_no_mutation (("x x").toList) (("x").toList)
      (("Q").toList) [] none).2.2 (by decide) (by decide) (by decide)⟩

/-- C7 (counterexample): the global-uniqueness fallback counts non-overlapping
regex matches, not occurrences.  In `aaa` the text `aa` occurs twice, yet
`match` reports a single (leftmost) hit, so the fallback treats it as unique
and the add succeeds — contradicting "succeeds only if the document contains
the bare selected text exactly once". -/
theorem c7_global_uniqueness_counterexample :
    processHighlightToggle (("aaa").toList) (("aa").toList) ⟨("Q").toList, [], none⟩ false
      = { success := true, newContent := some (("==aa==a").toList),
          action := some ToggleAction.added, error := none }
    ∧ countOcc (("aa").toList) (("aaa").toList) = 2 := by
  exact ⟨by decide, by decide⟩

/-- C7 (amended): when the exact-context and line strategies fall through, an
add succeeds iff the document has exactly one non-overlapping match of the
bare text and no occurrence of the delimited form, and a remove succeeds iff
it has exactly one non-overlapping match of the delimited form; in the
success case the first occurrence is substituted.  (For texts whose
occurrences cannot overlap, "one non-overlapping match" is "exactly one
occurrence".) -/
theorem c7_global_fallback_characterization (content t B A : List Char) (ln : Option Int) :
    (findFromEither (B ++ t ++ A) (B ++ highlightedVersion t ++ A) content 0 = none →
      addStrategy2 content t ln = none →
      (((processHighlightToggle content t ⟨B, A, ln⟩ false).success = true)
          ↔ (jsMatchCount t content = 1 ∧ countOcc (highlightedVersion t) content = 0))
      ∧ (jsMatchCount t content = 1 → countOcc (highlightedVersion t) content = 0 →
          ∃ q, findFrom t content 0 = some q
            ∧ (∀ q' < q, matchAt t content q' = false)
            ∧ (processHighlightToggle content t ⟨B, A, ln⟩ false).newContent
                = some (content.take q
                    ++ getSubstitution t (content.take q) (content.drop (q + t.length))
                        (highlightedVersion t)
                    ++ content.drop (q + t.length))))
    ∧ (findFrom (B ++ highlightedVersion t ++ A) content 0 = none →
        removeStrategy2 content t ln = none →
        (((processHighlightToggle content t ⟨B, A, ln⟩ true).success = true)
            ↔ jsMatchCount (highlightedVersion t) content = 1)
        ∧ (jsMatchCount (highlightedVersion t) content = 1 →
            ∃ q, findFrom (highlightedVersion t) content 0 = some q
              ∧ (∀ q' < q, matchAt (highlightedVersion t) content q' = false)
              ∧ (processHighlightToggle content t ⟨B, A, ln⟩ true).newContent
                  = some (content.take q
                      ++ getSubstitution (highlightedVersion t) (content.take q)
                          (content.drop (q + (highlightedVersion t).length)) t
                      ++ content.drop (q + (highlightedVersion t).length)))) := by
  constructor
  · intro hfe hs2
    have hproc : processHighlightToggle content t ⟨B, A, ln⟩ false = addStrategy3 content t := by
      rw [processHighlightToggle_false]
      have hred : addHighlightOptimized content t ⟨B, A, ln⟩ =
          match addStrategy2 content t ln with
          | some r => r
          | none => addStrategy3 content t := by
        simp only [addHighlightOptimized, addHighlightOptimizedFrom, execAlt, hfe]
        rcases addStrategy2 content t ln with _ | r <;> rfl
      rw [hred, hs2]
    rw [hproc]
    constructor
    · unfold addStrategy3
      by_cases hcond : jsMatchCount t content = 1
          ∧ jsMatchCount (highlightedVersion t) content = 0
      · rw [if_pos hcond]
        simp only [true_iff]
        exact ⟨hcond.1,
          (jsMatchCount_zero_iff (highlightedVersion_ne_nil t)).mp hcond.2⟩
      · rw [if_neg hcond]
        simp only [Bool.false_eq_true, false_iff]
        rintro ⟨h1, h2⟩
        exact hcond ⟨h1, (jsMatchCount_zero_iff (highlightedVersion_ne_nil t)).mpr h2⟩
    · intro h1 h2
      have hcond : jsMatchCount t content = 1
          ∧ jsMatchCount (highlightedVersion t) content = 0 :=
        ⟨h1, (jsMatchCount_zero_iff (highlightedVersion_ne_nil t)).mpr h2⟩
      obtain ⟨q, hq⟩ := jsMatchCount_one_findFrom h1
      obtain ⟨_, _, _, hmin⟩ := findFrom_some hq
      refine ⟨q, hq, fun q' hq' => hmin q' (by omega) hq', ?_⟩
      unfold addStrategy3
      rw [if_pos hcond]
      simp only
      rw [stringReplace_eq _ hq]
  · intro hft hs2
    have hproc : processHighlightToggle content t ⟨B, A, ln⟩ true
        = removeStrategy3 content t := by
      rw [processHighlightToggle_true]
      have hred : removeHighlightOptimized content t ⟨B, A, ln⟩ =
          match removeStrategy2 content t ln with
          | some r => r
          | none => removeStrategy3 content t := by
        simp only [removeHighlightOptimized, removeHighlightOptimizedFrom, regexTest, hft]
        rcases removeStrategy2 content t ln with _ | r <;> rfl
      rw [hred, hs2]
    rw [hproc]
    constructor
    · unfold removeStrategy3
      by_cases hcond : jsMatchCount (highlightedVersion t) content = 1
      · rw [if_pos hcond]
        simp only [true_iff]
        exact hcond
      · rw [if_neg hcond]
        simp only [Bool.false_eq_true, false_iff]
        exact hcond
    · intro h1
      obtain ⟨q, hq⟩ := jsMatchCount_one_findFrom h1
      obtain ⟨_, _, _, hmin⟩ := findFrom_some hq
      refine ⟨q, hq, fun q' hq' => hmin q' (by omega) hq', ?_⟩
      unfold removeStrategy3
      rw [if_pos h1]
      simp only
      rw [stringReplace_eq _ hq]

/-- Witness for the amended C7: with a context that matches nowhere and no
line hint, an add on a unique bare occurrence succeeds, and a remove on a
unique delimited occurrence succeeds. -/
theorem c7_global_fallback_characterization_witness :
    (processHighlightToggle (("cat sat").toList) (("cat").toList)
        ⟨("Q").toList, [], none⟩ false).success = true
    ∧ (processHighlightToggle (("==cat== s").toList) (("cat").toList)
        ⟨("Q").toList, [], none⟩ true).success = true :=
  ⟨((c7_global_fallback_characterization (("cat sat").toList) (("cat").toList)
      (("Q").toList) [] none).1 (by decide) (by decide)).1.mpr (by decide),
   ((c7_global_fallback_characterization (("==cat== s").toList) (("cat").toList)
      (("Q").toList) [] none).2 (by decide) (by decide)).1.mpr (by decide)⟩

theorem matchAt_exists_bounded {n c : List Char} (h : ∃ q, matchAt n c q = true) :
    ∃ q, q ≤ c.length ∧ matchAt n c q = true := by
  obtain ⟨q, hq⟩ := h
  rcases eq_or_ne n [] with rfl | hne
  · exact ⟨0, Nat.zero_le _, matchAt_nil c 0⟩
  · exact ⟨q, by have := matchAt_le_length hne hq; omega, hq⟩

/-- C2 (counterexample): the remove side of the exact-context strategy does
not perform one substitution at the first matching position.  With empty
contexts the pattern `==x==` occurs at positions 0 and 6 of `==x== ==x==`;
the claim demands a single substitution at position 0 (result `x ==x==`), but
the global replace substitutes both and returns `x x`. -/
theorem c2_first_position_counterexample :
    processHighlightToggle (("==x== ==x==").toList) (("x").toList) ⟨[], [], none⟩ true
      = { success := true, newContent := some (("x x").toList),
          action := some ToggleAction.removed, error := none }
    ∧ matchAt (("==x==").toList) (("==x== ==x==").toList) 0 = true
    ∧ (("x x").toList : List Char)
        ≠ (("==x== ==x==").toList).take 0 ++ ("x").toList
            ++ (("==x== ==x==").toList).drop 5 := by
  exact ⟨by decide, by decide, by decide⟩

/-- C2 (amended): whenever the exact-context pattern occurs (including with
empty, edge-truncated contexts), strategy 1 fires.  On the add side exactly
one substitution happens, at the first position where either alternative
matches (no earlier position matches either form).  On the remove side every
occurrence of the exact pattern is substituted; when the pattern occurs
exactly once this is a single substitution at its unique (hence first)
position. -/
theorem c2_exact_context_first_position (content t B A : List Char) (ln : Option Int) :
    ((∃ q0, matchAt (B ++ t ++ A) content q0 = true
        ∨ matchAt (B ++ highlightedVersion t ++ A) content q0 = true) →
      ∃ p isBare, findFromEither (B ++ t ++ A) (B ++ highlightedVersion t ++ A) content 0
          = some (p, isBare)
        ∧ (∀ q < p, matchAt (B ++ t ++ A) content q = false
            ∧ matchAt (B ++ highlightedVersion t ++ A) content q = false)
        ∧ matchAt (if isBare then B ++ t ++ A else B ++ highlightedVersion t ++ A) content p
            = true
        ∧ (processHighlightToggle content t ⟨B, A, ln⟩ false).success = true
        ∧ (processHighlightToggle content t ⟨B, A, ln⟩ false).newContent
            = some (content.take p
                ++ getSubstitution
                    (if isBare then B ++ t ++ A else B ++ highlightedVersion t ++ A)
                    (content.take p)
                    (content.drop (p + (if isBare then B ++ t ++ A
                      else B ++ highlightedVersion t ++ A).length))
                    (if isBare then B ++ highlightedVersion t ++ A else B ++ t ++ A)
                ++ content.drop (p + (if isBare then B ++ t ++ A
                    else B ++ highlightedVersion t ++ A).length)))
    ∧ ((∃ q0, matchAt (B ++ highlightedVersion t ++ A) content q0 = true) →
        (processHighlightToggle content t ⟨B, A, ln⟩ true).success = true
        ∧ (processHighlightToggle content t ⟨B, A, ln⟩ true).newContent
            = some (replaceAllLit (B ++ highlightedVersion t ++ A) (B ++ t ++ A) content)
        ∧ (countOcc (B ++ highlightedVersion t ++ A) content = 1 →
            ∃ p, findFrom (B ++ highlightedVersion t ++ A) content 0 = some p
              ∧ (∀ q < p, matchAt (B ++ highlightedVersion t ++ A) content q = false)
              ∧ (processHighlightToggle content t ⟨B, A, ln⟩ true).newContent
                  = some (content.take p
                      ++ getSubstitution (B ++ highlightedVersion t ++ A) (content.take p)
                          (content.drop (p + (B ++ highlightedVersion t ++ A).length))
                          (B ++ t ++ A)
                      ++ content.drop (p + (B ++ highlightedVersion t ++ A).length)))) := by
  constructor
  · intro hex
    have hbounded : ∃ q0, q0 ≤ content.length
        ∧ (matchAt (B ++ t ++ A) content q0 = true
          ∨ matchAt (B ++ highlightedVersion t ++ A) content q0 = true) := by
      obtain ⟨q0, hq0⟩ := hex
      rcases hq0 with hq0 | hq0
      · obtain ⟨q1, hb, hm⟩ := matchAt_exists_bounded ⟨q0, hq0⟩
        exact ⟨q1, hb, Or.inl hm⟩
      · obtain ⟨q1, hb, hm⟩ := matchAt_exists_bounded ⟨q0, hq0⟩
        exact ⟨q1, hb, Or.inr hm⟩
    obtain ⟨q0, hq0le, hq0m⟩ := hbounded
    obtain ⟨p, isBare, hfe⟩ := findFromEither_complete (Nat.zero_le q0) hq0le hq0m
    obtain ⟨_, _, hmp, _, hmin⟩ := findFromEither_some hfe
    refine ⟨p, isBare, hfe, fun q hq => hmin q (by omega) hq, hmp, ?_, ?_⟩
    · rw [processHighlightToggle_false]
      cases isBare with
      | true =>
        simp only [addHighlightOptimized, addHighlightOptimizedFrom, execAlt, hfe]
      | false =>
        simp only [addHighlightOptimized, addHighlightOptimizedFrom, execAlt, hfe]
    · rw [processHighlightToggle_false]
      cases isBare with
      | true =>
        have hff := findFromEither_findFrom_left hfe
        simp only [addHighlightOptimized, addHighlightOptimizedFrom, execAlt, hfe,
          eq_self_iff_true, if_true]
        rw [stringReplace_eq _ hff]
      | false =>
        have hff := findFromEither_findFrom_right hfe
        simp only [addHighlightOptimized, addHighlightOptimizedFrom, execAlt, hfe,
          Bool.false_eq_true, if_false]
        rw [stringReplace_eq _ hff]
  · intro hex
    have hb : ∃ q0, q0 ≤ content.length
        ∧ matchAt (B ++ highlightedVersion t ++ A) content q0 = true :=
      matchAt_exists_bounded hex
    obtain ⟨q0, hq0le, hq0m⟩ := hb
    obtain ⟨p0, hft⟩ := findFrom_complete (Nat.zero_le q0) hq0le hq0m
    rw [processHighlightToggle_true]
    have hred : removeHighlightOptimized content t ⟨B, A, ln⟩ =
        { success := true,
          newContent := some (replaceAllLit (B ++ highlightedVersion t ++ A)
            (B ++ t ++ A) content),
          action := some ToggleAction.removed } := by
      simp only [removeHighlightOptimized, removeHighlightOptimizedFrom, regexTest, hft]
    rw [hred]
    refine ⟨rfl, rfl, fun hcount => ?_⟩
    obtain ⟨p, hfp, hmp, heq⟩ := replaceAllLit_of_unique (B ++ t ++ A)
      (exactPattern_ne_nil B t A) hcount
    obtain ⟨_, _, _, hmin⟩ := findFrom_some hfp
    exact ⟨p, hfp, fun q hq => hmin q (by omega) hq, by rw [heq]⟩

/-- Witness for the amended C2 at a boundary selection (both contexts empty):
the bare text at position 0 of `cat ==cat==` drives the add, and the unique
delimited occurrence drives the remove. -/
theorem c2_exact_context_first_position_witness :
    ((processHighlightToggle (("cat ==cat==").toList) (("cat").toList)
        ⟨[], [], none⟩ false).success = true)
    ∧ ((processHighlightToggle (("cat ==cat==").toList) (("cat").toList)
        ⟨[], [], none⟩ true).success = true) := by
  have h1 := (c2_exact_context_first_position (("cat ==cat==").toList) (("cat").toList)
    [] [] none).1 ⟨0, Or.inl (by decide)⟩
  have h2 := (c2_exact_context_first_position (("cat ==cat==").toList) (("cat").toList)
    [] [] none).2 ⟨4, by decide⟩
  obtain ⟨p, isBare, _, _, _, hsucc, _⟩ := h1
  exact ⟨hsucc, h2.1⟩

instance noDollarDecidable (s : List Char) : Decidable (noDollar s) :=
  inferInstanceAs (Decidable ('$' ∉ s))

theorem noDollar_append {x y : List Char} (hx : noDollar x) (hy : noDollar y) :
    noDollar (x ++ y) := by
  intro hm
  rcases List.mem_append.mp hm with h | h
  · exact hx h
  · exact hy h

theorem noDollar_highlighted {t : List Char} (ht : noDollar t) :
    noDollar (highlightedVersion t) := by
  intro hm
  simp only [highlightedVersion, List.mem_cons, List.mem_append] at hm
  rcases hm with h | h | h | h
  · exact absurd h (by decide)
  · exact absurd h (by decide)
  · exact ht h
  · exact absurd h (by simp)

/-- C4 (counterexample): the replacement is not literal.  With selected text
`x` and rendered context `$&` after it, the exact-context strategy matches
`x$&` literally (the pattern side is correctly escaped), but the replacement
string `==x==$&` is passed to JS `replace`, which expands `$&` to the matched
text, producing `==x==x$&` instead of the literal `==x==$&`. -/
theorem c4_replacement_not_literal_counterexample :
    (addHighlightOptimized (("x$&").toList) (("x").toList)
        ⟨[], ("$&").toList, none⟩).newContent
      = some (("==x==x$&").toList)
    ∧ (("==x==x$&").toList : List Char) ≠ ("==x==$&").toList := by
  exact ⟨by decide, by decide⟩

/-- C4 (amended): matching is literal — an escaped string denotes exactly
itself as a pattern, and the matched region of the document is exactly the
literal `contextBefore ++ candidate ++ contextAfter`.  The substituted
replacement, however, is the literal `contextBefore ++ candidate' ++
contextAfter` only when the user-supplied strings contain no `$` character;
JS replacement patterns (`$$`, `$&`, dollar-backquote, dollar-quote) in them
are expanded. -/
theorem c4_literal_match_escaped_pattern (B t A c : List Char) (ln : Option Int) :
    patDenote (getEscapedText B ++ getEscapedText t ++ getEscapedText A)
      = some (B ++ t ++ A)
    ∧ patDenote (getEscapedText B ++ getEscapedText (highlightedVersion t)
        ++ getEscapedText A) = some (B ++ highlightedVersion t ++ A)
    ∧ ∀ p isBare, findFromEither (B ++ t ++ A) (B ++ highlightedVersion t ++ A) c 0
          = some (p, isBare) →
        ((c.drop p).take (if isBare then (B ++ t ++ A).length
            else (B ++ highlightedVersion t ++ A).length)
          = (if isBare then B ++ t ++ A else B ++ highlightedVersion t ++ A))
        ∧ (noDollar B → noDollar t → noDollar A →
            (addHighlightOptimized c t ⟨B, A, ln⟩).newContent
              = some (c.take p
                  ++ (B ++ (if isBare then highlightedVersion t else t) ++ A)
                  ++ c.drop (p + (if isBare then B ++ t ++ A
                      else B ++ highlightedVersion t ++ A).length))) := by
  refine ⟨patDenote_escape_three B t A, patDenote_escape_three B (highlightedVersion t) A,
    fun p isBare hfe => ⟨?_, ?_⟩⟩
  · obtain ⟨_, _, hmp, _, _⟩ := findFromEither_some hfe
    cases isBare with
    | true => simpa [matchAt] using hmp
    | false => simpa [matchAt] using hmp
  · intro hB ht hA
    cases isBare with
    | true =>
      have hff := findFromEither_findFrom_left hfe
      simp only [addHighlightOptimized, addHighlightOptimizedFrom, execAlt, hfe,
        eq_self_iff_true, if_true]
      rw [stringReplace_eq _ hff,
        getSubstitution_noDollar _ _ _
          (noDollar_append (noDollar_append hB (noDollar_highlighted ht)) hA)]
    | false =>
      have hff := findFromEither_findFrom_right hfe
      simp only [addHighlightOptimized, addHighlightOptimizedFrom, execAlt, hfe,
        Bool.false_eq_true, if_false]
      rw [stringReplace_eq _ hff,
        getSubstitution_noDollar _ _ _ (noDollar_append (noDollar_append hB ht) hA)]

/-- Witness for the amended C4 on metacharacter-laden inputs: the escaped
pattern for context `.`/`[x]` around `a*` denotes the literal string, and the
add substitutes the literal replacement. -/
theorem c4_literal_match_escaped_pattern_witness :
    patDenote (getEscapedText ((".").toList) ++ getEscapedText (("a*").toList)
        ++ getEscapedText (("[x]").toList))
      = some ((".").toList ++ ("a*").toList ++ ("[x]").toList)
    ∧ (addHighlightOptimized ((".a*[x]").toList) (("a*").toList)
        ⟨(".").toList, ("[x]").toList, none⟩).newContent
      = some (((".a*[x]").toList).take 0
          ++ ((".").toList ++ highlightedVersion (("a*").toList) ++ ("[x]").toList)
          ++ ((".a*[x]").toList).drop
              (0 + ((".").toList ++ ("a*").toList ++ ("[x]").toList).length)) :=
  ⟨(c4_literal_match_escaped_pattern ((".").toList) (("a*").toList) (("[x]").toList)
      ((".a*[x]").toList) none).1,
   ((c4_literal_match_escaped_pattern ((".").toList) (("a*").toList) (("[x]").toList)
      ((".a*[x]").toList) none).2.2 0 true (by decide)).2
     (by decide) (by decide) (by decide)⟩

theorem matchAt_splice (u needle rest : List Char) :
    matchAt needle (u ++ needle ++ rest) u.length = true := by
  have h1 : (u ++ needle ++ rest).drop u.length = needle ++ rest := by
    rw [List.append_assoc]
    have := drop_append_add u (needle ++ rest) 0
    simpa using this
  have h2 : (needle ++ rest).take needle.length = needle := List.take_left needle rest
  simp [matchAt, h1, h2]

/-- One full rendered-mode invocation (`handleReadingModeOptimized`,
src/main.ts lines 246-252) starting from a freshly cleared cache (the state
left by the periodic `clearCache` sweep): `HighlightDetector.isHighlighted`
runs first, and because its exact pattern is the same cache key as the remove
path's, its `test` advances the `lastIndex` that `removeHighlightOptimized`
then starts from; the add path's context regex is a different cache entry and
starts fresh. -/
def renderedModeToggleFresh (content selectedText : List Char)
    (positionInfo : PositionInfo) : ToggleResult :=
  match isHighlightedFrom [] 0 content selectedText positionInfo with
  | (flag, _, l2) => (processHighlightToggleFrom 0 l2 content selectedText positionInfo flag).1

theorem processHighlightToggleFrom_true (l1 l2 : Nat) (content t : List Char)
    (pos : PositionInfo) :
    (processHighlightToggleFrom l1 l2 content t pos true).1
      = (removeHighlightOptimizedFrom l2 content t pos).1 := by
  rcases h : removeHighlightOptimizedFrom l2 content t pos with ⟨r, l2x⟩
  simp [processHighlightToggleFrom, h]

/-- A match of a concatenated needle contains a match of its middle part. -/
theorem matchAt_append_inner {X Y Z c : List Char} {q : Nat}
    (h : matchAt (X ++ Y ++ Z) c q = true)
    (hb : q + (X ++ Y ++ Z).length ≤ c.length) :
    matchAt Y c (q + X.length) = true := by
  have hdec : c = c.take q ++ (X ++ Y ++ Z) ++ c.drop (q + (X ++ Y ++ Z).length) :=
    matchAt_decomp h
  have hre : (c.take q ++ X) ++ Y ++ (Z ++ c.drop (q + (X ++ Y ++ Z).length)) = c := by
    conv_rhs => rw [hdec]
    simp [List.append_assoc]
  have hlen : (c.take q ++ X).length = q + X.length := by
    simp [List.length_take]
    omega
  have hsp := matchAt_splice (c.take q ++ X) Y (Z ++ c.drop (q + (X ++ Y ++ Z).length))
  rw [hre, hlen] at hsp
  exact hsp

/-- A pattern with exactly one occurrence has exactly one non-overlapping
regex match. -/
theorem countOcc_one_jsMatchCount {X c : List Char} (hne : X ≠ [])
    (h : countOcc X c = 1) : jsMatchCount X c = 1 := by
  obtain ⟨q0, hm0, hq0, huq⟩ := countOcc_one_unique h
  obtain ⟨q, hfq⟩ := findFrom_complete (Nat.zero_le q0) hq0 hm0
  obtain ⟨_, hqle, hmq, _⟩ := findFrom_some hfq
  have hqq0 : q = q0 := huq q hmq hqle
  subst hqq0
  have hplen : 0 < X.length := List.length_pos.mpr hne
  have hfit : q + X.length ≤ c.length := matchAt_le_length hne hm0
  obtain ⟨m, hm⟩ : ∃ m, c.length = m + 1 := ⟨c.length - 1, by omega⟩
  have hnone : findFrom X c (q + X.length) = none := by
    rcases hf2 : findFrom X c (q + X.length) with _ | p2
    · rfl
    · obtain ⟨hge, hle2, hm2, _⟩ := findFrom_some hf2
      have : p2 = q := huq p2 hm2 hle2
      omega
  have htail : matchCountAux X c (m + 1) (q + X.length) = 0 := by
    rw [matchCountAux, hnone]
  rw [jsMatchCount, hm]
  show matchCountAux X c (m + 1 + 1) 0 = 1
  rw [matchCountAux, hfq]
  simp [htail]

/-- C5 (counterexample): through the full rendered-mode flow — detector then
toggle, sharing the cached exact-pattern regex, each invocation starting from
a cleared cache — the pair toggle does not restore the original.  On
`==x== ==x==` the detected remove substitutes both highlights at once,
giving `x x`; the follow-up invocation on the same selection and context is
an add that succeeds but yields `==x== x`, not the original document. -/
theorem c5_double_toggle_counterexample :
    renderedModeToggleFresh (("==x== ==x==").toList) (("x").toList) ⟨[], [], none⟩
      = { success := true, newContent := some (("x x").toList),
          action := some ToggleAction.removed, error := none }
    ∧ renderedModeToggleFresh (("x x").toList) (("x").toList) ⟨[], [], none⟩
      = { success := true, newContent := some (("==x== x").toList),
          action := some ToggleAction.added, error := none }
    ∧ (("==x== x").toList : List Char) ≠ ("==x== ==x==").toList := by
  exact ⟨by decide, by decide, by decide⟩

/-- C5 (amended): two full rendered-mode invocations — each running the
detector first, whose `test` hands its `lastIndex` to the toggle through the
shared cached regex — restore the byte-for-byte original with opposite
actions when: the exact context pattern is absent from the original document,
the first toggle is an add through the exact-context strategy matching the
bare alternative, no structural line hint is captured, the user-supplied
strings contain no `$` character, and the delimited selection occurs exactly
once in the document the add produced.  The second invocation's detector
consumes the unique context match, so the remove's own exact-context `test`
misses and restoration happens through the global-uniqueness fallback. -/
theorem c5_double_toggle_restores (c t B A : List Char) (p : Nat)
    (hdet : findFrom (B ++ highlightedVersion t ++ A) c 0 = none)
    (hexec : findFromEither (B ++ t ++ A) (B ++ highlightedVersion t ++ A) c 0
      = some (p, true))
    (hB : noDollar B) (ht : noDollar t) (hA : noDollar A)
    (huniq : countOcc (highlightedVersion t)
        (c.take p ++ (B ++ highlightedVersion t ++ A)
          ++ c.drop (p + (B ++ t ++ A).length)) = 1) :
    renderedModeToggleFresh c t ⟨B, A, none⟩
      = { success := true,
          newContent := some (c.take p ++ (B ++ highlightedVersion t ++ A)
            ++ c.drop (p + (B ++ t ++ A).length)),
          action := some ToggleAction.added }
    ∧ renderedModeToggleFresh (c.take p ++ (B ++ highlightedVersion t ++ A)
        ++ c.drop (p + (B ++ t ++ A).length)) t ⟨B, A, none⟩
      = { success := true, newContent := some c,
          action := some ToggleAction.removed } := by
  obtain ⟨_, hple, hmbare', _, _⟩ := findFromEither_some hexec
  have hmbare : matchAt (B ++ t ++ A) c p = true := by simpa using hmbare'
  have hff := findFromEither_findFrom_left hexec
  have hdecomp : c = c.take p ++ (B ++ t ++ A) ++ c.drop (p + (B ++ t ++ A).length) :=
    matchAt_decomp hmbare
  have hlenu : (c.take p).length = p := by
    simp [List.length_take]; omega
  have hndP : noDollar (B ++ highlightedVersion t ++ A) :=
    noDollar_append (noDollar_append hB (noDollar_highlighted ht)) hA
  have hre : (c.take p ++ B) ++ highlightedVersion t
        ++ (A ++ c.drop (p + (B ++ t ++ A).length))
      = c.take p ++ (B ++ highlightedVersion t ++ A)
        ++ c.drop (p + (B ++ t ++ A).length) := by
    simp [List.append_assoc]
  have hlenuB : (c.take p ++ B).length = p + B.length := by
    simp [hlenu]
  have hmhigh : matchAt (highlightedVersion t)
      (c.take p ++ (B ++ highlightedVersion t ++ A)
        ++ c.drop (p + (B ++ t ++ A).length)) (p + B.length) = true := by
    have hsp := matchAt_splice (c.take p ++ B) (highlightedVersion t)
      (A ++ c.drop (p + (B ++ t ++ A).length))
    rw [hre, hlenuB] at hsp
    exact hsp
  obtain ⟨q0, hm0, hq0, huq⟩ := countOcc_one_unique huniq
  have huq' : ∀ q', matchAt (highlightedVersion t)
      (c.take p ++ (B ++ highlightedVersion t ++ A)
        ++ c.drop (p + (B ++ t ++ A).length)) q' = true → q' = p + B.length := by
    intro q' hq'
    have hb1 := matchAt_le_length (highlightedVersion_ne_nil t) hq'
    have hb2 := matchAt_le_length (highlightedVersion_ne_nil t) hmhigh
    have h1 := huq q' hq' (by omega)
    have h2 := huq (p + B.length) hmhigh (by omega)
    omega
  have hPuniq : ∀ q', matchAt (B ++ highlightedVersion t ++ A)
      (c.take p ++ (B ++ highlightedVersion t ++ A)
        ++ c.drop (p + (B ++ t ++ A).length)) q' = true → q' = p := by
    intro q' hq'
    have hb := matchAt_le_length (exactPattern_ne_nil B t A) hq'
    have hin := matchAt_append_inner hq' hb
    have := huq' (q' + B.length) hin
    omega
  have hmP : matchAt (B ++ highlightedVersion t ++ A)
      (c.take p ++ (B ++ highlightedVersion t ++ A)
        ++ c.drop (p + (B ++ t ++ A).length)) p = true := by
    have hsp := matchAt_splice (c.take p) (B ++ highlightedVersion t ++ A)
      (c.drop (p + (B ++ t ++ A).length))
    rwa [hlenu] at hsp
  have hfP : findFrom (B ++ highlightedVersion t ++ A)
      (c.take p ++ (B ++ highlightedVersion t ++ A)
        ++ c.drop (p + (B ++ t ++ A).length)) 0 = some p := by
    have hbound := matchAt_le_length (exactPattern_ne_nil B t A) hmP
    obtain ⟨p1, hfp1⟩ := findFrom_complete (Nat.zero_le p) (by omega) hmP
    obtain ⟨_, _, hmp1, _⟩ := findFrom_some hfp1
    rw [hPuniq p1 hmp1] at hfp1
    exact hfp1
  have hPpos : 0 < (B ++ highlightedVersion t ++ A).length :=
    List.length_pos.mpr (exactPattern_ne_nil B t A)
  have hfnone : findFrom (B ++ highlightedVersion t ++ A)
      (c.take p ++ (B ++ highlightedVersion t ++ A)
        ++ c.drop (p + (B ++ t ++ A).length))
      (p + (B ++ highlightedVersion t ++ A).length) = none := by
    rcases hf2 : findFrom (B ++ highlightedVersion t ++ A)
        (c.take p ++ (B ++ highlightedVersion t ++ A)
          ++ c.drop (p + (B ++ t ++ A).length))
        (p + (B ++ highlightedVersion t ++ A).length) with _ | p2
    · rfl
    · obtain ⟨hge, _, hm2, _⟩ := findFrom_some hf2
      have := hPuniq p2 hm2
      omega
  have hfhigh : findFrom (highlightedVersion t)
      (c.take p ++ (B ++ highlightedVersion t ++ A)
        ++ c.drop (p + (B ++ t ++ A).length)) 0 = some (p + B.length) := by
    have hbound := matchAt_le_length (highlightedVersion_ne_nil t) hmhigh
    obtain ⟨p1, hfp1⟩ := findFrom_complete (Nat.zero_le (p + B.length)) (by omega) hmhigh
    obtain ⟨_, _, hmp1, _⟩ := findFrom_some hfp1
    rw [huq' p1 hmp1] at hfp1
    exact hfp1
  have hjs : jsMatchCount (highlightedVersion t)
      (c.take p ++ (B ++ highlightedVersion t ++ A)
        ++ c.drop (p + (B ++ t ++ A).length)) = 1 :=
    countOcc_one_jsMatchCount (highlightedVersion_ne_nil t) huniq
  constructor
  · have hdet1 : isHighlightedFrom [] 0 c t ⟨B, A, none⟩
        = (false, [(detectKey t B A, false)], 0) := by
      simp only [isHighlightedFrom, List.lookup_nil, regexTest, hdet,
        Bool.false_eq_true, if_false]
    have hstep : renderedModeToggleFresh c t ⟨B, A, none⟩
        = (processHighlightToggleFrom 0 0 c t ⟨B, A, none⟩ false).1 := by
      simp only [renderedModeToggleFresh, hdet1]
    rw [hstep]
    show processHighlightToggle c t ⟨B, A, none⟩ false = _
    rw [processHighlightToggle_false]
    simp only [addHighlightOptimized, addHighlightOptimizedFrom, execAlt, hexec,
      eq_self_iff_true, if_true]
    rw [stringReplace_eq _ hff, getSubstitution_noDollar _ _ _ hndP]
  · have hdet2 : isHighlightedFrom [] 0
        (c.take p ++ (B ++ highlightedVersion t ++ A)
          ++ c.drop (p + (B ++ t ++ A).length)) t ⟨B, A, none⟩
        = (true, [(detectKey t B A, true)],
            p + (B ++ highlightedVersion t ++ A).length) := by
      simp only [isHighlightedFrom, List.lookup_nil, regexTest, hfP,
        eq_self_iff_true, if_true]
    have hstep : renderedModeToggleFresh
        (c.take p ++ (B ++ highlightedVersion t ++ A)
          ++ c.drop (p + (B ++ t ++ A).length)) t ⟨B, A, none⟩
        = (processHighlightToggleFrom 0 (p + (B ++ highlightedVersion t ++ A).length)
            (c.take p ++ (B ++ highlightedVersion t ++ A)
              ++ c.drop (p + (B ++ t ++ A).length)) t ⟨B, A, none⟩ true).1 := by
      simp only [renderedModeToggleFresh, hdet2]
    rw [hstep, processHighlightToggleFrom_true]
    simp only [removeHighlightOptimizedFrom, regexTest, hfnone, removeStrategy2]
    unfold removeStrategy3
    rw [if_pos hjs]
    rw [stringReplace_eq _ hfhigh, getSubstitution_noDollar _ _ _ ht]
    have hre2 : (c.take p ++ B) ++ (highlightedVersion t
          ++ (A ++ c.drop (p + (B ++ t ++ A).length)))
        = c.take p ++ (B ++ highlightedVersion t ++ A)
          ++ c.drop (p + (B ++ t ++ A).length) := by
      simp [List.append_assoc]
    have htake : (c.take p ++ (B ++ highlightedVersion t ++ A)
          ++ c.drop (p + (B ++ t ++ A).length)).take (p + B.length)
        = c.take p ++ B := by
      have h0 := List.take_left (c.take p ++ B)
        (highlightedVersion t ++ (A ++ c.drop (p + (B ++ t ++ A).length)))
      rw [hlenuB, hre2] at h0
      exact h0
    have hdrop : (c.take p ++ (B ++ highlightedVersion t ++ A)
          ++ c.drop (p + (B ++ t ++ A).length)).drop
            (p + B.length + (highlightedVersion t).length)
        = A ++ c.drop (p + (B ++ t ++ A).length) := by
      have h1 := drop_append_add (c.take p ++ B)
        (highlightedVersion t ++ (A ++ c.drop (p + (B ++ t ++ A).length)))
        (highlightedVersion t).length
      rw [hlenuB, hre2] at h1
      rw [h1, List.drop_left]
    rw [htake, hdrop]
    have hback : (c.take p ++ B) ++ t ++ (A ++ c.drop (p + (B ++ t ++ A).length)) = c := by
      conv_rhs => rw [hdecomp]
      simp [List.append_assoc]
    rw [hback]

/-- Witness for the amended C5 on the specification's scenario, through the
full rendered-mode flow: adding around `cat` in `The cat sat.` and invoking
again restores the original text with the opposite action. -/
theorem c5_double_toggle_restores_witness :
    renderedModeToggleFresh (("The cat sat.").toList) (("cat").toList)
        ⟨("The ").toList, (" sat.").toList, none⟩
      = { success := true,
          newContent := some ((("The cat sat.").toList).take 0
            ++ (("The ").toList ++ highlightedVersion (("cat").toList) ++ (" sat.").toList)
            ++ (("The cat sat.").toList).drop
                (0 + (("The ").toList ++ ("cat").toList ++ (" sat.").toList).length)),
          action := some ToggleAction.added }
    ∧ renderedModeToggleFresh ((("The cat sat.").toList).take 0
        ++ (("The ").toList ++ highlightedVersion (("cat").toList) ++ (" sat.").toList)
        ++ (("The cat sat.").toList).drop
            (0 + (("The ").toList ++ ("cat").toList ++ (" sat.").toList).length))
        (("cat").toList) ⟨("The ").toList, (" sat.").toList, none⟩
      = { success := true, newContent := some (("The cat sat.").toList),
          action := some ToggleAction.removed } :=
  c5_double_toggle_restores (("The cat sat.").toList) (("cat").toList)
    (("The ").toList) ((" sat.").toList) 0
    (by decide) (by decide) (by decide) (by decide) (by decide) (by decide)

theorem substring_infix (line : List Char) (a b : Nat) (hab : a ≤ b) :
    line.take a ++ jsSubstring line a b ++ line.drop b = line := by
  rw [jsSubstring, if_pos hab]
  have h1 : (line.take b).take a = line.take a := by
    rw [List.take_take, Nat.min_eq_left hab]
  calc line.take a ++ (line.take b).drop a ++ line.drop b
      = (line.take b).take a ++ (line.take b).drop a ++ line.drop b := by rw [h1]
    _ = line.take b ++ line.drop b := by rw [List.take_append_drop]
    _ = line := List.take_append_drop b line

/-- C8: on the selection's line, `handleEditingModeOptimized` implements
exactly the specification's ordered three-case rule — surrounding `==`
markers extend the edit region and unwrap; a self-delimited selection sheds
its first and last two characters; anything else is wrapped in `==`. -/
theorem c8_editing_three_case_rule (line : List Char) (sCh eCh : Nat)
    (hse : sCh ≤ eCh) (hel : eCh ≤ line.length)
    (hguard : (jsSubstring line sCh eCh).all Char.isWhitespace = false) :
    handleEditingModeOptimized line sCh eCh = some (editingThreeCaseSpec line sCh eCh) := by
  have hsel : jsSubstring line sCh eCh = (line.take eCh).drop sCh := by
    simp [jsSubstring, hse]
  have hbm : jsSubstring line (sCh - 2) sCh = (line.take sCh).drop (sCh - 2) := by
    simp [jsSubstring, Nat.sub_le]
  have hmle : eCh ≤ min line.length (eCh + 2) := by omega
  have ham : jsSubstring line eCh (min line.length (eCh + 2))
      = (line.take (min line.length (eCh + 2))).drop eCh := by
    simp [jsSubstring, hmle]
  simp only [handleEditingModeOptimized, editingThreeCaseSpec, hsel, hbm, ham]
  rw [if_neg (by simp [← hsel, hguard])]
  by_cases hc1 : (line.take sCh).drop (sCh - 2) = eqeq
      ∧ (line.take (min line.length (eCh + 2))).drop eCh = eqeq
  · have hlbm := congrArg List.length hc1.1
    have hlam := congrArg List.length hc1.2
    simp only [List.length_drop, List.length_take, eqeq, List.length_cons,
      List.length_nil] at hlbm hlam
    have h2s : 2 ≤ sCh := by omega
    have he2 : eCh + 2 ≤ line.length := by omega
    have hmin : min line.length (eCh + 2) = eCh + 2 := by omega
    rw [if_pos hc1, if_pos ⟨h2s, he2, hc1.1, by rw [← hmin]; exact hc1.2⟩, hmin]
  · have hnspec : ¬(2 ≤ sCh ∧ eCh + 2 ≤ line.length
        ∧ (line.take sCh).drop (sCh - 2) = eqeq
        ∧ (line.take (eCh + 2)).drop eCh = eqeq) := by
      rintro ⟨h2s, he2, hb, ha⟩
      have hmin : min line.length (eCh + 2) = eCh + 2 := by omega
      exact hc1 ⟨hb, by rw [hmin]; exact ha⟩
    rw [if_neg hc1, if_neg hnspec]
    by_cases hc2 : ((line.take eCh).drop sCh).take 2 = eqeq
        ∧ ((line.take eCh).drop sCh).drop (((line.take eCh).drop sCh).length - 2) = eqeq
    · rw [if_pos hc2, if_pos hc2]
    · rw [if_neg hc2, if_neg hc2]

/-- Witness for C8 on the specification's scenario: selecting `word` inside
`==word==` detects the surrounding markers and unwraps the line. -/
theorem c8_editing_three_case_rule_witness :
    handleEditingModeOptimized (("==word==").toList) 2 6
      = some (editingThreeCaseSpec (("==word==").toList) 2 6)
    ∧ editingThreeCaseSpec (("==word==").toList) 2 6 = ("word").toList :=
  ⟨c8_editing_three_case_rule (("==word==").toList) 2 6
    (by decide) (by decide) (by decide), by decide⟩

/-- C9: the marker-inspection indices are clamped into the line: the clamped
positions never exceed the line length, both inspected marker substrings are
genuine infixes of the line (no out-of-range access), and the operation is
total — for every in-range selection, including ones shorter than the
delimiter width and ones touching the line's edges, it produces an edit
exactly when the selection is not all-whitespace. -/
theorem c9_marker_reads_in_bounds (line : List Char) (sCh eCh : Nat)
    (hse : sCh ≤ eCh) (hel : eCh ≤ line.length) :
    (sCh - 2 ≤ line.length ∧ min line.length (eCh + 2) ≤ line.length)
    ∧ (line.take (sCh - 2) ++ jsSubstring line (sCh - 2) sCh ++ line.drop sCh = line)
    ∧ (line.take eCh ++ jsSubstring line eCh (min line.length (eCh + 2))
        ++ line.drop (min line.length (eCh + 2)) = line)
    ∧ ((handleEditingModeOptimized line sCh eCh).isSome
        = !(jsSubstring line sCh eCh).all Char.isWhitespace) := by
  refine ⟨⟨by omega, by omega⟩,
    substring_infix line (sCh - 2) sCh (Nat.sub_le _ _),
    substring_infix line eCh (min line.length (eCh + 2)) (by omega), ?_⟩
  by_cases hg : (jsSubstring line sCh eCh).all Char.isWhitespace
  · simp [handleEditingModeOptimized, hg]
  · rw [Bool.eq_false_iff.mpr hg]
    simp only [handleEditingModeOptimized]
    rw [if_neg hg]
    split
    · simp
    · split <;> simp

/-- Witness for C9 on a selection shorter than the delimiter width at the
very start of a one-character line. -/
theorem c9_marker_reads_in_bounds_witness :
    (0 - 2 ≤ (("a").toList : List Char).length
      ∧ min (("a").toList : List Char).length (1 + 2) ≤ (("a").toList : List Char).length)
    ∧ ((("a").toList : List Char).take (0 - 2) ++ jsSubstring (("a").toList) (0 - 2) 0
        ++ (("a").toList : List Char).drop 0 = ("a").toList)
    ∧ ((("a").toList : List Char).take 1
        ++ jsSubstring (("a").toList) 1 (min (("a").toList : List Char).length (1 + 2))
        ++ (("a").toList : List Char).drop (min (("a").toList : List Char).length (1 + 2))
        = ("a").toList)
    ∧ ((handleEditingModeOptimized (("a").toList) 0 1).isSome
        = !(jsSubstring (("a").toList) 0 1).all Char.isWhitespace) :=
  c9_marker_reads_in_bounds (("a").toList) 0 1 (by decide) (by decide)
